import Mathlib

set_option maxHeartbeats 1000000

namespace AnonymizeSlide

/-! Verification of the anonymize-slide whole-slide-image redactor.

The development embeds the byte-level operations of the source
(TiffFile, TiffDirectory, TiffEntry, MrxsFile and the per-format
handlers) as executable functions over byte sequences modelled as
`List Nat` (each element one byte value), and proves the behavioural
claims about them.  File reads and writes are modelled positionally:
`seek(off); read(n)` becomes `readBytes f off n` and
`seek(off); write(data)` becomes `writeBytes f off data`.  Multi-byte
integer fields are decoded and encoded explicitly with the dialect
endianness, as `struct.unpack`/`struct.pack` do in the source. -/

/-- Read n bytes at offset off: models fh.seek(off) followed by fh.read(n).
A read reaching past the end of the file returns the available shorter list. -/
def readBytes (f : List Nat) (off n : Nat) : List Nat :=
  (f.drop off).take n

/-- Overwrite bytes in place at offset off: models fh.seek(off) followed by
fh.write(data).  All uses in the verified operations stay inside the file,
which the theorems require through their in-range hypotheses. -/
def writeBytes (f : List Nat) (off : Nat) (data : List Nat) : List Nat :=
  f.take off ++ data ++ f.drop (off + data.length)

/-- Little-endian unsigned value of a byte list, as struct.unpack yields for
the < prefix.  Each byte is reduced mod 256 so the value of a w-byte list is
always below 256^w. -/
def decodeLE : List Nat → Nat
  | [] => 0
  | b :: bs => b % 256 + 256 * decodeLE bs

/-- Little-endian encoding of v into w bytes, as struct.pack emits for the
< prefix on unsigned fields. -/
def encodeLE : Nat → Nat → List Nat
  | 0, _ => []
  | w + 1, v => v % 256 :: encodeLE w (v / 256)

/-- Decode one unsigned word with the dialect endianness; le = true is the
II (little-endian) byte order, le = false the MM (big-endian) one. -/
def decodeWord (le : Bool) (bs : List Nat) : Nat :=
  if le then decodeLE bs else decodeLE bs.reverse

/-- Encode one unsigned word of width w with the dialect endianness. -/
def encodeWord (le : Bool) (w v : Nat) : List Nat :=
  if le then encodeLE w v else (encodeLE w v).reverse

/-- read_fmt for one fixed-width unsigned field at an absolute offset.
A short read (offset + width past the end) is a struct.error in the source,
modelled as none. -/
def readWord (le : Bool) (f : List Nat) (off w : Nat) : Option Nat :=
  if off + w ≤ f.length then some (decodeWord le (readBytes f off w)) else none

theorem readBytes_length (f : List Nat) (off n : Nat) :
    (readBytes f off n).length = min n (f.length - off) := by
  unfold readBytes
  simp

theorem readBytes_getElem? (f : List Nat) (off n j : Nat) :
    (readBytes f off n)[j]? = if j < n then f[off + j]? else none := by
  unfold readBytes
  by_cases hj : j < n
  · rw [if_pos hj, List.getElem?_take_of_lt hj, List.getElem?_drop]
  · rw [if_neg hj]
    apply List.getElem?_eq_none
    have : (List.take n (List.drop off f)).length ≤ n := by
      simp
    omega

theorem readBytes_full (f : List Nat) (off n : Nat) (h : off + n ≤ f.length) :
    (readBytes f off n).length = n := by
  rw [readBytes_length]
  omega

theorem writeBytes_length (f data : List Nat) (off : Nat)
    (h : off + data.length ≤ f.length) :
    (writeBytes f off data).length = f.length := by
  unfold writeBytes
  simp
  omega

theorem writeBytes_getElem? (f data : List Nat) (off i : Nat)
    (h : off + data.length ≤ f.length) :
    (writeBytes f off data)[i]? =
      if off ≤ i ∧ i < off + data.length then data[i - off]? else f[i]? := by
  unfold writeBytes
  have hlt : (f.take off).length = off := by
    simp
    omega
  have hlt2 : (f.take off ++ data).length = off + data.length := by
    simp
    omega
  by_cases h1 : i < off
  · rw [List.getElem?_append_left (by rw [hlt2]; omega),
      List.getElem?_append_left (by rw [hlt]; omega),
      List.getElem?_take_of_lt h1]
    rw [if_neg (by omega)]
  · by_cases h2 : i < off + data.length
    · rw [if_pos ⟨by omega, h2⟩]
      rw [List.getElem?_append_left (by rw [hlt2]; omega)]
      rw [List.getElem?_append_right (by rw [hlt]; omega)]
      rw [hlt]
    · rw [if_neg (by omega)]
      rw [List.getElem?_append_right (by rw [hlt2]; omega)]
      rw [List.getElem?_drop, hlt2]
      congr 1
      omega

theorem readBytes_writeBytes_self (f data : List Nat) (off : Nat)
    (h : off + data.length ≤ f.length) :
    readBytes (writeBytes f off data) off data.length = data := by
  apply List.ext_getElem?
  intro j
  rw [readBytes_getElem?]
  by_cases hj : j < data.length
  · rw [if_pos hj, writeBytes_getElem? _ _ _ _ h, if_pos ⟨by omega, by omega⟩]
    congr 1
    omega
  · rw [if_neg hj, eq_comm]
    apply List.getElem?_eq_none
    omega

theorem decodeLE_lt (bs : List Nat) : decodeLE bs < 256 ^ bs.length := by
  induction bs with
  | nil => simp [decodeLE]
  | cons b bs ih =>
    unfold decodeLE
    have hb : b % 256 < 256 := Nat.mod_lt _ (by norm_num)
    have : 256 ^ (b :: bs).length = 256 * 256 ^ bs.length := by
      rw [List.length_cons, pow_succ]
      ring
    rw [this]
    omega

theorem encodeLE_length (w v : Nat) : (encodeLE w v).length = w := by
  induction w generalizing v with
  | zero => rfl
  | succ w ih =>
    unfold encodeLE
    simp [ih]

theorem decodeLE_encodeLE (w v : Nat) : decodeLE (encodeLE w v) = v % 256 ^ w := by
  induction w generalizing v with
  | zero => simp [encodeLE, decodeLE, Nat.mod_one]
  | succ w ih =>
    show decodeLE (v % 256 :: encodeLE w (v / 256)) = v % 256 ^ (w + 1)
    unfold decodeLE
    rw [ih, Nat.mod_mod_of_dvd v (dvd_refl 256), pow_succ', Nat.mod_mul]

theorem encodeWord_length (le : Bool) (w v : Nat) :
    (encodeWord le w v).length = w := by
  unfold encodeWord
  cases le <;> simp [encodeLE_length]

theorem decodeWord_encodeWord (le : Bool) (w v : Nat) :
    decodeWord le (encodeWord le w v) = v % 256 ^ w := by
  unfold decodeWord encodeWord
  cases le <;> simp [decodeLE_encodeLE]

theorem decodeWord_lt (le : Bool) (bs : List Nat) :
    decodeWord le bs < 256 ^ bs.length := by
  unfold decodeWord
  cases le with
  | false =>
    simp only [Bool.false_eq_true, if_false]
    simpa using decodeLE_lt bs.reverse
  | true =>
    simp only [if_true]
    exact decodeLE_lt bs

/-- TiffFile.near_pointer from the source: in NDPI mode, when offset < base,
shift offset up by whole multiples of 2^32 to land within 4 GiB below base;
otherwise return offset unchanged. -/
def near_pointer (ndpi : Bool) (base offset : Nat) : Nat :=
  if ndpi = true ∧ offset < base then
    offset + ((base - offset) / 2 ^ 32) * 2 ^ 32
  else offset

/-- C7: in NDPI mode, for every pair (base, offset) with offset < 2^32 and
offset < base, near_pointer base offset returns a value a congruent to offset
modulo 2^32 with base - 2^32 ≤ a ≤ base. -/
theorem near_pointer_ndpi_near (base offset : Nat)
    (h32 : offset < 2 ^ 32) (hlt : offset < base) :
    near_pointer true base offset % 2 ^ 32 = offset % 2 ^ 32 ∧
    near_pointer true base offset ≤ base ∧
    base - 2 ^ 32 ≤ near_pointer true base offset := by
  have hcond : (true = true ∧ offset < base) := ⟨rfl, hlt⟩
  have ha : near_pointer true base offset
      = offset + ((base - offset) / 2 ^ 32) * 2 ^ 32 := by
    unfold near_pointer
    exact if_pos hcond
  refine ⟨?_, ?_, ?_⟩
  · rw [ha]
    exact Nat.add_mul_mod_self_right offset _ _
  · rw [ha]
    have h1 : (base - offset) / 2 ^ 32 * 2 ^ 32 ≤ base - offset :=
      Nat.div_mul_le_self _ _
    omega
  · rw [ha]
    have hpos : 0 < 2 ^ 32 := by positivity
    have hdm := Nat.div_add_mod (base - offset) (2 ^ 32)
    have hmlt : (base - offset) % 2 ^ 32 < 2 ^ 32 := Nat.mod_lt _ hpos
    have hmul : 2 ^ 32 * ((base - offset) / 2 ^ 32)
        = (base - offset) / 2 ^ 32 * 2 ^ 32 := Nat.mul_comm _ _
    omega

/-- C7 witness at base = 2^32 + 5, offset = 3. -/
theorem near_pointer_ndpi_near_witness :
    near_pointer true (2 ^ 32 + 5) 3 % 2 ^ 32 = 3 % 2 ^ 32 ∧
    near_pointer true (2 ^ 32 + 5) 3 ≤ 2 ^ 32 + 5 ∧
    2 ^ 32 + 5 - 2 ^ 32 ≤ near_pointer true (2 ^ 32 + 5) 3 :=
  near_pointer_ndpi_near (2 ^ 32 + 5) 3 (by norm_num) (by norm_num)

/-- C9: near_pointer is the identity whenever the file is not in NDPI mode or
offset ≥ base, so classic-TIFF and BigTIFF offsets are used verbatim. -/
theorem near_pointer_id (ndpi : Bool) (base offset : Nat)
    (h : ndpi = false ∨ base ≤ offset) :
    near_pointer ndpi base offset = offset := by
  unfold near_pointer
  rcases h with h | h
  · subst h
    simp
  · have : ¬ (ndpi = true ∧ offset < base) := by
      rintro ⟨_, hlt⟩
      omega
    exact if_neg this

/-- C9 witness: NDPI mode with offset ≥ base, and classic mode. -/
theorem near_pointer_id_witness : near_pointer true 5 9 = 9 :=
  near_pointer_id true 5 9 (Or.inr (by norm_num))

/-! MRXS container editor (MrxsFile). -/

/-- JPEG start-of-image marker, the two bytes FF D8. -/
def JPEG_SOI : List Nat := [0xFF, 0xD8]

/-- Fixed location of the nonhier table-base pointer in the MRXS index file. -/
def MRXS_NONHIER_ROOT_OFFSET : Nat := 41

inductive MrxsErr where
  | unexpectedNonhier
  | shortRead
  deriving DecidableEq, Repr

instance {e a : Type} [DecidableEq e] [DecidableEq a] : DecidableEq (Except e a) :=
  fun x y =>
    match x, y with
    | .error u, .error v =>
      if h : u = v then isTrue (by rw [h]) else isFalse (by intro hc; cases hc; exact h rfl)
    | .ok u, .ok v =>
      if h : u = v then isTrue (by rw [h]) else isFalse (by intro hc; cases hc; exact h rfl)
    | .error _, .ok _ => isFalse (by intro hc; cases hc)
    | .ok _, .error _ => isFalse (by intro hc; cases hc)

/-- MrxsFile._zero_record acting on the resolved datafile contents, after
_get_data_location returned (position, size).  The source computes
do_truncate from the file length, then reads two bytes at position and
requires them to be the JPEG SOI, then truncates to position or overwrites
size bytes with zeros.  The zero write is modelled as a byte write: the
source passes a text string of NULs to a binary handle there, and its
documented intent is the corresponding byte string. -/
def zero_record (file : List Nat) (position size : Nat) : Except MrxsErr (List Nat) :=
  if readBytes file position 2 ≠ JPEG_SOI then .error .unexpectedNonhier
  else if file.length = position + size then .ok (file.take position)
  else .ok (writeBytes file position (List.replicate size 0))

/-- C2 counterexample: a datafile whose length equals position + size but
whose bytes at position are not the JPEG SOI.  The claim says such a record
is truncated unconditionally; the source verifies the SOI in the truncation
branch too and fails instead. -/
theorem zero_record_truncate_counterexample :
    ([0, 0] : List Nat).length = 0 + 2 ∧
    zero_record [0, 0] 0 2 = .error .unexpectedNonhier ∧
    zero_record [0, 0] 0 2 ≠ .ok (([0, 0] : List Nat).take 0) := by
  decide

/-- C2 amended: _zero_record always verifies the two bytes at position are
the JPEG SOI (in the truncation case too); given that, it truncates the
datafile to position when its length equals position + size, and otherwise
overwrites exactly the size bytes at position with zeros, leaving all other
bytes and the file length unchanged. -/
theorem zero_record_spec (file : List Nat) (position size : Nat)
    (hsoi : readBytes file position 2 = JPEG_SOI)
    (hrange : position + size ≤ file.length) :
    (file.length = position + size →
      zero_record file position size = .ok (file.take position)) ∧
    (file.length ≠ position + size →
      ∃ g, zero_record file position size = .ok g ∧
        g.length = file.length ∧
        (∀ i, position ≤ i → i < position + size → g[i]? = some 0) ∧
        (∀ i, i < position ∨ position + size ≤ i → g[i]? = file[i]?)) := by
  have hnot : ¬ (readBytes file position 2 ≠ JPEG_SOI) := by
    rw [hsoi]
    simp
  constructor
  · intro heq
    unfold zero_record
    rw [if_neg hnot, if_pos heq]
  · intro hne
    refine ⟨writeBytes file position (List.replicate size 0), ?_, ?_, ?_, ?_⟩
    · unfold zero_record
      rw [if_neg hnot, if_neg hne]
    · rw [writeBytes_length]
      rw [List.length_replicate]
      omega
    · intro i h1 h2
      rw [writeBytes_getElem? _ _ _ _ (by rw [List.length_replicate]; omega)]
      rw [if_pos ⟨h1, by rw [List.length_replicate]; omega⟩]
      rw [List.getElem?_replicate, if_pos (by omega)]
    · intro i hout
      rw [writeBytes_getElem? _ _ _ _ (by rw [List.length_replicate]; omega)]
      rw [if_neg (by rw [List.length_replicate]; omega)]

/-- C2 witness: both branches at concrete inputs, through zero_record_spec. -/
theorem zero_record_spec_witness :
    (([0xFF, 0xD8] : List Nat).length = 0 + 2 →
      zero_record [0xFF, 0xD8] 0 2 = .ok (([0xFF, 0xD8] : List Nat).take 0)) ∧
    (([0xFF, 0xD8] : List Nat).length ≠ 0 + 2 →
      ∃ g, zero_record [0xFF, 0xD8] 0 2 = .ok g ∧
        g.length = ([0xFF, 0xD8] : List Nat).length ∧
        (∀ i, 0 ≤ i → i < 0 + 2 → g[i]? = some 0) ∧
        (∀ i, i < 0 ∨ 0 + 2 ≤ i → g[i]? = ([0xFF, 0xD8] : List Nat)[i]?)) :=
  zero_record_spec [0xFF, 0xD8] 0 2 (by decide) (by decide)

/-- MrxsFile._delete_index_record acting on the index file contents.  The
record count of the current level list is total.  When no entries follow the
record the method returns before touching the file; otherwise it reads the
table base (signed little-endian 32-bit at offset 41), reads the tail of the
table and writes it back one slot earlier.  The unsigned decode below equals
the signed one for the non-negative table bases required by the theorem. -/
def delete_index_record (idx : List Nat) (total record : Nat) : Option (List Nat) :=
  let entries_to_move := total - record - 1
  if entries_to_move = 0 then some idx
  else
    match readWord true idx MRXS_NONHIER_ROOT_OFFSET 4 with
    | none => none
    | some table_base =>
      let buf := readBytes idx (table_base + (record + 1) * 4) (entries_to_move * 4)
      if buf.length ≠ entries_to_move * 4 then none
      else some (writeBytes idx (table_base + record * 4) buf)

/-- C3: deleting record r of n moves the (n - r - 1) * 4 tail bytes at
table_base + (r+1)*4 down to table_base + r*4; with r = n - 1 the index file
is untouched; the file is never truncated and every byte outside the moved
target region, including the stale trailing slot, is unchanged. -/
theorem delete_index_record_spec (idx : List Nat) (total record table_base : Nat)
    (hrec : record < total)
    (htb : readWord true idx MRXS_NONHIER_ROOT_OFFSET 4 = some table_base)
    (hrange : table_base + total * 4 ≤ idx.length) :
    ∃ out, delete_index_record idx total record = some out ∧
      out.length = idx.length ∧
      (record = total - 1 → out = idx) ∧
      (∀ i, table_base + record * 4 ≤ i → i < table_base + (total - 1) * 4 →
        out[i]? = idx[i + 4]?) ∧
      (∀ i, i < table_base + record * 4 ∨ table_base + (total - 1) * 4 ≤ i →
        out[i]? = idx[i]?) := by
  by_cases hm : total - record - 1 = 0
  · refine ⟨idx, ?_, rfl, fun _ => rfl, ?_, fun _ _ => rfl⟩
    · unfold delete_index_record
      rw [if_pos hm]
    · intro i h1 h2
      omega
  · have hmove : total - record - 1 ≥ 1 := by omega
    set m := total - record - 1 with hmdef
    set start := table_base + (record + 1) * 4 with hstart
    have hbuflen : (readBytes idx start (m * 4)).length = m * 4 :=
      readBytes_full _ _ _ (by omega)
    refine ⟨writeBytes idx (table_base + record * 4) (readBytes idx start (m * 4)),
      ?_, ?_, ?_, ?_, ?_⟩
    · unfold delete_index_record
      rw [if_neg hm, htb]
      simp only
      rw [if_neg (by rw [hbuflen]; simp)]
    · rw [writeBytes_length]
      rw [hbuflen]
      omega
    · intro hlast
      omega
    · intro i h1 h2
      rw [writeBytes_getElem? _ _ _ _ (by rw [hbuflen]; omega)]
      rw [if_pos ⟨h1, by rw [hbuflen]; omega⟩]
      rw [readBytes_getElem?, if_pos (by omega)]
      congr 1
      omega
    · intro i hout
      rw [writeBytes_getElem? _ _ _ _ (by rw [hbuflen]; omega)]
      rw [if_neg (by rw [hbuflen]; omega)]

/-- C3 witness: a 56-byte index file, table base 45, two records, deleting
record 0 moves the second slot down; all facts through delete_index_record_spec. -/
theorem delete_index_record_spec_witness :
    ∃ out, delete_index_record
        (List.replicate 41 0 ++ [45, 0, 0, 0] ++ [1, 1, 1, 1] ++ [2, 2, 2, 2] ++ [9, 9, 9])
        2 0 = some out ∧
      out.length = (List.replicate 41 0 ++ [45, 0, 0, 0] ++ [1, 1, 1, 1] ++ [2, 2, 2, 2]
        ++ [9, 9, 9]).length ∧
      ((0 : Nat) = 2 - 1 → out = List.replicate 41 0 ++ [45, 0, 0, 0] ++ [1, 1, 1, 1]
        ++ [2, 2, 2, 2] ++ [9, 9, 9]) ∧
      (∀ i, 45 + 0 * 4 ≤ i → i < 45 + (2 - 1) * 4 →
        out[i]? = (List.replicate 41 0 ++ [45, 0, 0, 0] ++ [1, 1, 1, 1] ++ [2, 2, 2, 2]
          ++ [9, 9, 9])[i + 4]?) ∧
      (∀ i, i < 45 + 0 * 4 ∨ 45 + (2 - 1) * 4 ≤ i →
        out[i]? = (List.replicate 41 0 ++ [45, 0, 0, 0] ++ [1, 1, 1, 1] ++ [2, 2, 2, 2]
          ++ [9, 9, 9])[i]?) :=
  delete_index_record_spec _ 2 0 45 (by decide) (by decide) (by decide)

/-! BOM handling of the Slidedat.ini sidecar. -/

/-- The UTF-8 byte-order mark. -/
def UTF8_BOM_BYTES : List Nat := [0xEF, 0xBB, 0xBF]

/-- Behavior of the utf-8-sig codec used when MrxsFile.__init__ opens
Slidedat.ini: one leading BOM is consumed by the decoder before any read
returns data. -/
def utf8SigStrip (file : List Nat) : List Nat :=
  if file.take 3 = UTF8_BOM_BYTES then file.drop 3 else file

/-- MrxsFile.__init__ BOM detection: the source reads one character from the
utf-8-sig stream and compares it with U+FEFF (whose UTF-8 encoding is the
three BOM bytes).  Because the codec has already consumed a leading BOM,
this is true only when the decoded text itself still begins with U+FEFF,
i.e. when the raw file begins with two BOMs. -/
def mrxs_have_bom (file : List Nat) : Bool :=
  decide ((utf8SigStrip file).take 3 = UTF8_BOM_BYTES)

/-- MrxsFile._write: emit the UTF-8 BOM first iff _have_bom was recorded at
open, then the serialized INI bytes. -/
def mrxs_write_bytes (have_bom : Bool) (payload : List Nat) : List Nat :=
  (if have_bom then UTF8_BOM_BYTES else []) ++ payload

/-- The Slidedat.ini bytes written back at the end of delete_level, given the
raw bytes the file had at open and the reserialized INI payload. -/
def mrxs_rewrite (file payload : List Nat) : List Nat :=
  mrxs_write_bytes (mrxs_have_bom file) payload

/-- C6: on a Slidedat.ini that begins with the UTF-8 BOM, the open-time
detection records no BOM (the utf-8-sig codec consumed it before the
comparison), so the rewritten Slidedat.ini does not begin with the BOM:
BOM presence does not round-trip through delete_level. -/
theorem mrxs_bom_not_roundtripped :
    ([0xEF, 0xBB, 0xBF, 0x41] : List Nat).take 3 = UTF8_BOM_BYTES ∧
    mrxs_have_bom [0xEF, 0xBB, 0xBF, 0x41] = false ∧
    (mrxs_rewrite [0xEF, 0xBB, 0xBF, 0x41] [0x41]).take 3 ≠ UTF8_BOM_BYTES := by
  decide

/-! Format handlers (do_aperio_svs and do_hamamatsu_ndpi of anonymize_slide.py).

The handlers are modelled one level above the byte file: a TIFF file is
presented as the list of its directories, each directory abstracted to the
data the handler probes - the IMAGE_DESCRIPTION value (none when tag 270 is
absent, mirroring the KeyError of entries[IMAGE_DESCRIPTION]) for SVS, and
the NDPI_MAGIC presence plus NDPI_SOURCELENS value for NDPI.  The byte-level
effect of TiffDirectory.delete that the handlers invoke is verified
separately (claim C1); here its outcome on the directory sequence is the
removal of the chosen index. -/

/-- bytes.splitlines for byte strings: split on LF, CR and CRLF; a trailing
fragment without a terminator is kept, a trailing terminator adds no empty
line. -/
def splitlinesAux : List Nat → List Nat → List (List Nat)
  | [], acc => if acc.isEmpty then [] else [acc.reverse]
  | 0x0D :: 0x0A :: rest, acc => acc.reverse :: splitlinesAux rest []
  | 0x0A :: rest, acc => acc.reverse :: splitlinesAux rest []
  | 0x0D :: rest, acc => acc.reverse :: splitlinesAux rest []
  | c :: rest, acc => splitlinesAux rest (c :: acc)

def splitlines (l : List Nat) : List (List Nat) :=
  splitlinesAux l []

/-- The byte string "label " probed by the SVS label walk. -/
def labelBytes : List Nat := [0x6C, 0x61, 0x62, 0x65, 0x6C, 0x20]

/-- The byte string "macro " probed by the SVS macro walk. -/
def macroBytes : List Nat := [0x6D, 0x61, 0x63, 0x72, 0x6F, 0x20]

/-- The byte string "Aperio" probed by SVS detection. -/
def aperioBytes : List Nat := [0x41, 0x70, 0x65, 0x72, 0x69, 0x6F]

/-- The walk condition of do_aperio_svs: the description has at least two
lines and its second line starts with the probe bytes. -/
def descMatches (pre : List Nat) (d : List Nat) : Bool :=
  match (splitlines d)[1]? with
  | some l1 => decide (l1.take pre.length = pre)
  | none => false

inductive HandlerErr where
  | unrecognizedFile
  | keyError
  | ioNoLabelSvs
  | ioNoMacroSvs
  | ioNoLabelNdpi
  | ioNoDirectories
  deriving DecidableEq, Repr

/-- One for-loop walk of do_aperio_svs over the directories: probing a
directory without IMAGE_DESCRIPTION raises KeyError; the first directory
whose description matches ends the walk with its index; a complete walk
without a match returns none (the for-else case). -/
def svsFindTarget (pre : List Nat) : List (Option (List Nat)) → Except HandlerErr (Option Nat)
  | [] => .ok none
  | none :: _ => .error .keyError
  | some d :: rest =>
    if descMatches pre d then .ok (some 0)
    else
      match svsFindTarget pre rest with
      | .ok none => .ok none
      | .ok (some i) => .ok (some (i + 1))
      | .error e => .error e

/-- One delete phase of do_aperio_svs (the label and macro loops are
identical up to the probe bytes and the for-else error): find the first
matching directory and delete it, or fail with the phase's IOError. -/
def svsDeletePhase (pre : List Nat) (missing : HandlerErr)
    (descs : List (Option (List Nat))) : Except HandlerErr (List (Option (List Nat))) :=
  match svsFindTarget pre descs with
  | .error e => .error e
  | .ok none => .error missing
  | .ok (some i) => .ok (descs.eraseIdx i)

/-- SVS detection: directory 0's IMAGE_DESCRIPTION must exist (KeyError is
caught and becomes UnrecognizedFile) and start with Aperio.  An empty
directory list is the IOError raised by TiffFile.__init__ itself. -/
def svsDetect (descs : List (Option (List Nat))) : Except HandlerErr Unit :=
  match descs.head? with
  | none => .error .ioNoDirectories
  | some none => .error .unrecognizedFile
  | some (some d0) =>
    if d0.take aperioBytes.length = aperioBytes then .ok () else .error .unrecognizedFile

/-- do_aperio_svs of anonymize_slide.py up to the end of the macro phase:
detection, then delete the label directory, then delete the macro directory.
(The final Filename-overwrite pass rewrites entry payloads in place and is
covered at byte level by the TiffEntry model; it does not change the
directory sequence.) -/
def do_aperio_svs (descs : List (Option (List Nat))) :
    Except HandlerErr (List (Option (List Nat))) :=
  match svsDetect descs with
  | .error e => .error e
  | .ok _ =>
    match svsDeletePhase labelBytes .ioNoLabelSvs descs with
    | .error e => .error e
    | .ok descs1 => svsDeletePhase macroBytes .ioNoMacroSvs descs1

/-- A directory as probed by do_hamamatsu_ndpi: whether tag 65420 is present
and the first element of the NDPI_SOURCELENS value (none when tag 65421 is
absent, mirroring the KeyError of entries[NDPI_SOURCELENS]). -/
structure NdpiDir where
  hasMagic : Bool
  sourceLens : Option Int
  deriving DecidableEq, Repr

/-- The NDPI walk: probing a directory without tag 65421 raises KeyError;
the first directory whose source lens equals -1 ends the walk with its
index; otherwise none. -/
def ndpiFindTarget : List NdpiDir → Except HandlerErr (Option Nat)
  | [] => .ok none
  | d :: rest =>
    match d.sourceLens with
    | none => .error .keyError
    | some v =>
      if v = -1 then .ok (some 0)
      else
        match ndpiFindTarget rest with
        | .ok none => .ok none
        | .ok (some i) => .ok (some (i + 1))
        | .error e => .error e

/-- do_hamamatsu_ndpi: detection is the presence of tag 65420 in directory
0; then the walk deletes the first directory with source lens -1 (returned
here as its index) or fails with the no-label IOError. -/
def do_hamamatsu_ndpi (dirs : List NdpiDir) : Except HandlerErr Nat :=
  match dirs.head? with
  | none => .error .ioNoDirectories
  | some d0 =>
    if d0.hasMagic then
      match ndpiFindTarget dirs with
      | .error e => .error e
      | .ok none => .error .ioNoLabelNdpi
      | .ok (some i) => .ok i
    else .error .unrecognizedFile

inductive OldErr where
  | unrecognizedFile
  | keyError
  | typeErr
  | ioNoLabel
  | ioNoDirectories
  deriving DecidableEq, Repr

/-- The label walk of the older variant's do_aperio_svs (anonymize-slide.py):
for each directory it reads entries[IMAGE_DESCRIPTION] (KeyError when the
tag is absent) and splits the value into lines.  value() returns bytes (for
ASCII it is the b-join of the struct items), so each line is bytes and, when
len(lines) >= 2, the next statement bytes(lines[1], 'utf-8') raises
TypeError - the encoding argument is only accepted for str - before the
startswith test, the delete call and the break are reached; the break itself
sits outside the startswith test, so even without the TypeError the walk
would stop at the first two-line description.  A walk that meets no
two-line description falls into the for-else and raises
IOError('No label in SVS file'). -/
def svsOldLabelWalk : List (Option (List Nat)) → Except OldErr Unit
  | [] => .error .ioNoLabel
  | none :: _ => .error .keyError
  | some d :: rest =>
    if 2 ≤ (splitlines d).length then .error .typeErr
    else svsOldLabelWalk rest

/-- do_aperio_svs of anonymize-slide.py: Aperio detection on directory 0's
IMAGE_DESCRIPTION (a KeyError is caught and becomes UnrecognizedFile; an
empty directory list is the IOError of TiffFile.__init__ itself), then the
label walk above.  There is no macro phase in this variant. -/
def do_aperio_svs_old (descs : List (Option (List Nat))) : Except OldErr Unit :=
  match descs.head? with
  | none => .error .ioNoDirectories
  | some none => .error .unrecognizedFile
  | some (some d0) =>
    if d0.take aperioBytes.length = aperioBytes then svsOldLabelWalk descs
    else .error .unrecognizedFile

/-- An SVS description whose second line starts with "label ". -/
def svsOldExample : List Nat := aperioBytes ++ [0x0A] ++ labelBytes

/-- An SVS description with two lines, neither a label. -/
def svsOldNoLabelExample : List Nat := aperioBytes ++ [0x0A] ++ macroBytes

theorem svsFindTarget_none (pre : List Nat) (descs : List (Option (List Nat)))
    (h : ∀ x ∈ descs, ∃ d, x = some d ∧ descMatches pre d = false) :
    svsFindTarget pre descs = .ok none := by
  induction descs with
  | nil => rfl
  | cons x rest ih =>
    obtain ⟨d, hx, hm⟩ := h x (List.mem_cons_self x rest)
    subst hx
    unfold svsFindTarget
    rw [hm]
    simp only [Bool.false_eq_true, if_false]
    rw [ih (fun y hy => h y (List.mem_cons_of_mem _ hy))]

theorem svsFindTarget_first (pre : List Nat) (descs : List (Option (List Nat)))
    (i : Nat) (d : List Nat)
    (hi : descs[i]? = some (some d)) (hm : descMatches pre d = true)
    (hbefore : ∀ j, j < i → ∃ dj, descs[j]? = some (some dj) ∧ descMatches pre dj = false) :
    svsFindTarget pre descs = .ok (some i) := by
  induction descs generalizing i with
  | nil => simp at hi
  | cons x rest ih =>
    cases i with
    | zero =>
      simp at hi
      subst hi
      unfold svsFindTarget
      rw [hm]
      simp
    | succ j =>
      obtain ⟨d0, hx, hm0⟩ := hbefore 0 (Nat.succ_pos j)
      simp at hx
      subst hx
      unfold svsFindTarget
      rw [hm0]
      simp only [Bool.false_eq_true, if_false]
      have hrec : svsFindTarget pre rest = .ok (some j) := by
        apply ih j
        · simpa using hi
        · intro j2 hj2
          have := hbefore (j2 + 1) (by omega)
          simpa using this
      rw [hrec]

theorem svsFindTarget_keyError (pre : List Nat) (descs : List (Option (List Nat)))
    (i : Nat) (hi : descs[i]? = some none)
    (hbefore : ∀ j, j < i → ∃ dj, descs[j]? = some (some dj) ∧ descMatches pre dj = false) :
    svsFindTarget pre descs = .error .keyError := by
  induction descs generalizing i with
  | nil => simp at hi
  | cons x rest ih =>
    cases i with
    | zero =>
      simp at hi
      subst hi
      rfl
    | succ j =>
      obtain ⟨d0, hx, hm0⟩ := hbefore 0 (Nat.succ_pos j)
      simp at hx
      subst hx
      unfold svsFindTarget
      rw [hm0]
      simp only [Bool.false_eq_true, if_false]
      have hrec : svsFindTarget pre rest = .error .keyError := by
        apply ih j
        · simpa using hi
        · intro j2 hj2
          have := hbefore (j2 + 1) (by omega)
          simpa using this
      rw [hrec]

theorem ndpiFindTarget_none (dirs : List NdpiDir)
    (h : ∀ x ∈ dirs, ∃ v, x.sourceLens = some v ∧ v ≠ -1) :
    ndpiFindTarget dirs = .ok none := by
  induction dirs with
  | nil => rfl
  | cons x rest ih =>
    obtain ⟨v, hx, hv⟩ := h x (List.mem_cons_self x rest)
    unfold ndpiFindTarget
    rw [hx]
    simp only
    rw [if_neg hv, ih (fun y hy => h y (List.mem_cons_of_mem _ hy))]

theorem ndpiFindTarget_first (dirs : List NdpiDir) (i : Nat) (d : NdpiDir)
    (hi : dirs[i]? = some d) (hm : d.sourceLens = some (-1))
    (hbefore : ∀ j, j < i → ∃ dj v, dirs[j]? = some dj ∧ dj.sourceLens = some v ∧ v ≠ -1) :
    ndpiFindTarget dirs = .ok (some i) := by
  induction dirs generalizing i with
  | nil => simp at hi
  | cons x rest ih =>
    cases i with
    | zero =>
      simp at hi
      subst hi
      unfold ndpiFindTarget
      rw [hm]
      simp
    | succ j =>
      obtain ⟨d0, v, hx, hl, hv⟩ := hbefore 0 (Nat.succ_pos j)
      simp at hx
      subst hx
      unfold ndpiFindTarget
      rw [hl]
      simp only
      rw [if_neg hv]
      have hrec : ndpiFindTarget rest = .ok (some j) := by
        apply ih j
        · simpa using hi
        · intro j2 hj2
          have := hbefore (j2 + 1) (by omega)
          simpa using this
      rw [hrec]

theorem ndpiFindTarget_keyError (dirs : List NdpiDir) (i : Nat) (d : NdpiDir)
    (hi : dirs[i]? = some d) (hm : d.sourceLens = none)
    (hbefore : ∀ j, j < i → ∃ dj v, dirs[j]? = some dj ∧ dj.sourceLens = some v ∧ v ≠ -1) :
    ndpiFindTarget dirs = .error .keyError := by
  induction dirs generalizing i with
  | nil => simp at hi
  | cons x rest ih =>
    cases i with
    | zero =>
      simp at hi
      subst hi
      unfold ndpiFindTarget
      rw [hm]
    | succ j =>
      obtain ⟨d0, v, hx, hl, hv⟩ := hbefore 0 (Nat.succ_pos j)
      simp at hx
      subst hx
      unfold ndpiFindTarget
      rw [hl]
      simp only
      rw [if_neg hv]
      have hrec : ndpiFindTarget rest = .error .keyError := by
        apply ih j
        · simpa using hi
        · intro j2 hj2
          have := hbefore (j2 + 1) (by omega)
          simpa using this
      rw [hrec]

/-- C5: after SVS detection (IFD 0's IMAGE_DESCRIPTION starts with Aperio),
the handler walks the IFDs in order and deletes the first directory whose
IMAGE_DESCRIPTION second line starts with "label "; on an SVS file where no
IFD matches, it raises the format-specific no-label IOError, which is not
UnrecognizedFile. -/
theorem do_aperio_svs_label_spec (descs : List (Option (List Nat))) (d0 : List Nat)
    (h0 : descs.head? = some (some d0))
    (hap : d0.take aperioBytes.length = aperioBytes)
    (hall : ∀ x ∈ descs, x ≠ none) :
    (∀ (i : Nat) (d : List Nat), descs[i]? = some (some d) →
      descMatches labelBytes d = true →
      (∀ (j : Nat) (dj : List Nat), j < i → descs[j]? = some (some dj) →
        descMatches labelBytes dj = false) →
      svsDeletePhase labelBytes .ioNoLabelSvs descs = .ok (descs.eraseIdx i)) ∧
    ((∀ (i : Nat) (d : List Nat), descs[i]? = some (some d) →
        descMatches labelBytes d = false) →
      do_aperio_svs descs = .error .ioNoLabelSvs ∧
      HandlerErr.ioNoLabelSvs ≠ HandlerErr.unrecognizedFile) := by
  constructor
  · intro i d hi hm hbefore
    have hfind : svsFindTarget labelBytes descs = .ok (some i) := by
      apply svsFindTarget_first labelBytes descs i d hi hm
      intro j hj
      have hlen : i < descs.length := by
        rw [List.getElem?_eq_some] at hi
        exact hi.1
      have hjlen : j < descs.length := by omega
      have hxj : descs[j]? = some descs[j] := List.getElem?_eq_getElem hjlen
      have hmem : descs[j] ∈ descs := List.getElem?_mem hxj
      cases hel : descs[j] with
      | none =>
        rw [hel] at hmem
        exact absurd rfl (hall none hmem)
      | some dj =>
        rw [hel] at hxj
        exact ⟨dj, hxj, hbefore j dj hj hxj⟩
    unfold svsDeletePhase
    rw [hfind]
  · intro hno
    have hfind : svsFindTarget labelBytes descs = .ok none := by
      apply svsFindTarget_none
      intro x hx
      cases x with
      | none => exact absurd rfl (hall none hx)
      | some d =>
        rw [List.mem_iff_getElem?] at hx
        obtain ⟨i, hi⟩ := hx
        exact ⟨d, rfl, hno i d hi⟩
    constructor
    · unfold do_aperio_svs svsDetect
      rw [h0]
      simp only
      rw [if_pos hap]
      unfold svsDeletePhase
      rw [hfind]
    · intro h
      exact HandlerErr.noConfusion h

/-- C5 witness: a two-directory SVS whose second directory's description has
second line "label 1"; and the same facts on the no-label obligations hold
vacuously or by computation. -/
theorem do_aperio_svs_label_spec_witness :
    (∀ (i : Nat) (d : List Nat),
      ([some aperioBytes, some ([0x78, 0x0A] ++ labelBytes ++ [0x31])]
        : List (Option (List Nat)))[i]? = some (some d) →
      descMatches labelBytes d = true →
      (∀ (j : Nat) (dj : List Nat), j < i →
        ([some aperioBytes, some ([0x78, 0x0A] ++ labelBytes ++ [0x31])]
        : List (Option (List Nat)))[j]? = some (some dj) →
        descMatches labelBytes dj = false) →
      svsDeletePhase labelBytes .ioNoLabelSvs
          [some aperioBytes, some ([0x78, 0x0A] ++ labelBytes ++ [0x31])]
        = .ok (([some aperioBytes, some ([0x78, 0x0A] ++ labelBytes ++ [0x31])]
          : List (Option (List Nat))).eraseIdx i)) ∧
    ((∀ (i : Nat) (d : List Nat),
      ([some aperioBytes, some ([0x78, 0x0A] ++ labelBytes ++ [0x31])]
        : List (Option (List Nat)))[i]? = some (some d) →
      descMatches labelBytes d = false) →
      do_aperio_svs [some aperioBytes, some ([0x78, 0x0A] ++ labelBytes ++ [0x31])]
        = .error .ioNoLabelSvs ∧
      HandlerErr.ioNoLabelSvs ≠ HandlerErr.unrecognizedFile) :=
  do_aperio_svs_label_spec
    [some aperioBytes, some ([0x78, 0x0A] ++ labelBytes ++ [0x31])]
    aperioBytes (by decide) (by decide) (by decide)

/-- C5 counterexample: the older cited handler (anonymize-slide.py's
do_aperio_svs) does not behave as the claim says.  On a detected SVS file
whose directory 0 description has second line starting with "label " the
claim demands the label directory be deleted, but the old handler raises
TypeError at the first two-line description (its bytes(lines[1], 'utf-8')
call runs on a bytes value); and on a detected SVS file whose only
description has a two-line non-label description the claim demands the
no-label IOError, but the old handler again raises TypeError. -/
theorem do_aperio_svs_old_counterexample :
    svsOldExample.take aperioBytes.length = aperioBytes ∧
    descMatches labelBytes svsOldExample = true ∧
    do_aperio_svs_old [some svsOldExample] = .error .typeErr ∧
    svsOldNoLabelExample.take aperioBytes.length = aperioBytes ∧
    descMatches labelBytes svsOldNoLabelExample = false ∧
    do_aperio_svs_old [some svsOldNoLabelExample] = .error .typeErr ∧
    OldErr.typeErr ≠ OldErr.ioNoLabel ∧
    OldErr.typeErr ≠ OldErr.unrecognizedFile := by
  decide

/-- An SVS directory sequence with a label directory but no macro directory. -/
def svsNoMacroExample : List (Option (List Nat)) :=
  [some aperioBytes, some ([0x78, 0x0A] ++ labelBytes), some aperioBytes]

/-- C8 counterexample: on an SVS file that has a label directory but no
macro directory, do_aperio_svs raises the "No macro detected in SVS file"
IOError; it does not complete successfully. -/
theorem do_aperio_svs_missing_macro_counterexample :
    do_aperio_svs svsNoMacroExample = .error .ioNoMacroSvs ∧
    ∀ out, do_aperio_svs svsNoMacroExample ≠ .ok out := by
  have h1 : do_aperio_svs svsNoMacroExample = .error .ioNoMacroSvs := by decide
  refine ⟨h1, ?_⟩
  intro out h
  rw [h1] at h
  exact Except.noConfusion h

/-- C8 amended: the macro image is not optional in this implementation - on
an SVS file with a label directory but no macro directory, the handler
deletes the label directory and then fails with the "No macro detected in
SVS file" IOError instead of completing the redaction. -/
theorem do_aperio_svs_missing_macro_spec (descs : List (Option (List Nat)))
    (d0 : List Nat) (i : Nat) (d : List Nat)
    (h0 : descs.head? = some (some d0))
    (hap : d0.take aperioBytes.length = aperioBytes)
    (hall : ∀ x ∈ descs, x ≠ none)
    (hi : descs[i]? = some (some d)) (hm : descMatches labelBytes d = true)
    (hbefore : ∀ (j : Nat) (dj : List Nat), j < i → descs[j]? = some (some dj) →
      descMatches labelBytes dj = false)
    (hnm : ∀ x ∈ descs, ∀ dx, x = some dx → descMatches macroBytes dx = false) :
    svsDeletePhase labelBytes .ioNoLabelSvs descs = .ok (descs.eraseIdx i) ∧
    do_aperio_svs descs = .error .ioNoMacroSvs := by
  have hlabel : svsDeletePhase labelBytes .ioNoLabelSvs descs = .ok (descs.eraseIdx i) := by
    have hfind : svsFindTarget labelBytes descs = .ok (some i) := by
      apply svsFindTarget_first labelBytes descs i d hi hm
      intro j hj
      have hlen : i < descs.length := by
        rw [List.getElem?_eq_some] at hi
        exact hi.1
      have hjlen : j < descs.length := by omega
      have hxj : descs[j]? = some descs[j] := List.getElem?_eq_getElem hjlen
      have hmem : descs[j] ∈ descs := List.getElem?_mem hxj
      cases hel : descs[j] with
      | none =>
        rw [hel] at hmem
        exact absurd rfl (hall none hmem)
      | some dj =>
        rw [hel] at hxj
        exact ⟨dj, hxj, hbefore j dj hj hxj⟩
    unfold svsDeletePhase
    rw [hfind]
  refine ⟨hlabel, ?_⟩
  have hmacnone : svsFindTarget macroBytes (descs.eraseIdx i) = .ok none := by
    apply svsFindTarget_none
    intro x hx
    have hmem : x ∈ descs := List.mem_of_mem_eraseIdx hx
    cases x with
    | none => exact absurd rfl (hall none hmem)
    | some dx => exact ⟨dx, rfl, hnm (some dx) hmem dx rfl⟩
  have hdet : svsDetect descs = .ok () := by
    unfold svsDetect
    rw [h0]
    simp only
    rw [if_pos hap]
  unfold do_aperio_svs
  simp only [hdet, hlabel]
  unfold svsDeletePhase
  simp only [hmacnone]

/-- C8 witness: the amended behavior at the concrete three-directory SVS. -/
theorem do_aperio_svs_missing_macro_spec_witness :
    svsDeletePhase labelBytes .ioNoLabelSvs svsNoMacroExample
      = .ok (svsNoMacroExample.eraseIdx 1) ∧
    do_aperio_svs svsNoMacroExample = .error .ioNoMacroSvs :=
  do_aperio_svs_missing_macro_spec svsNoMacroExample aperioBytes 1
    ([0x78, 0x0A] ++ labelBytes)
    (by decide) (by decide) (by decide) (by decide) (by decide)
    (by
      intro j dj hj hjel
      interval_cases j
      have hdj : dj = aperioBytes := by
        have : some (some aperioBytes) = some (some dj) := by
          rw [← hjel]
          decide
        simpa using this.symm
      rw [hdj]
      decide)
    (by
      intro x hx dx hdx
      subst hdx
      unfold svsNoMacroExample at hx
      simp only [List.mem_cons, List.not_mem_nil, or_false] at hx
      rcases hx with h | h | h
      · rw [Option.some_inj.mp h]
        decide
      · rw [Option.some_inj.mp h]
        decide
      · rw [Option.some_inj.mp h]
        decide)

/-- C10: during the post-detection walk, a probed IFD that lacks the tag
being probed makes the handler fail with an uncaught KeyError - not the
format-specific no-label IOError and not UnrecognizedFile: for SVS a
non-first directory lacking IMAGE_DESCRIPTION, for NDPI any directory
lacking NDPI_SOURCELENS. -/
theorem walk_missing_tag_keyError :
    (∀ (descs : List (Option (List Nat))) (d0 : List Nat) (i : Nat),
      descs.head? = some (some d0) →
      d0.take aperioBytes.length = aperioBytes →
      1 ≤ i → descs[i]? = some none →
      (∀ j, j < i → ∃ dj, descs[j]? = some (some dj) ∧
        descMatches labelBytes dj = false) →
      do_aperio_svs descs = .error .keyError ∧
      HandlerErr.keyError ≠ HandlerErr.ioNoLabelSvs ∧
      HandlerErr.keyError ≠ HandlerErr.unrecognizedFile) ∧
    (∀ (dirs : List NdpiDir) (h0 : NdpiDir) (i : Nat) (d : NdpiDir),
      dirs.head? = some h0 → h0.hasMagic = true →
      dirs[i]? = some d → d.sourceLens = none →
      (∀ j, j < i → ∃ dj v, dirs[j]? = some dj ∧ dj.sourceLens = some v ∧ v ≠ -1) →
      do_hamamatsu_ndpi dirs = .error .keyError) := by
  constructor
  · intro descs d0 i h0 hap hi1 hi hbefore
    have hfind : svsFindTarget labelBytes descs = .error .keyError :=
      svsFindTarget_keyError labelBytes descs i hi hbefore
    refine ⟨?_, fun h => HandlerErr.noConfusion h, fun h => HandlerErr.noConfusion h⟩
    unfold do_aperio_svs svsDetect
    rw [h0]
    simp only
    rw [if_pos hap]
    unfold svsDeletePhase
    rw [hfind]
  · intro dirs h0 i d hh0 hmag hi hsl hbefore
    have hfind : ndpiFindTarget dirs = .error .keyError :=
      ndpiFindTarget_keyError dirs i d hi hsl hbefore
    unfold do_hamamatsu_ndpi
    rw [hh0]
    simp only
    rw [if_pos hmag, hfind]

/-- C10 witness: an SVS whose second directory lacks IMAGE_DESCRIPTION and
an NDPI whose second directory lacks NDPI_SOURCELENS, both through
walk_missing_tag_keyError. -/
theorem walk_missing_tag_keyError_witness :
    (do_aperio_svs [some aperioBytes, none] = .error .keyError ∧
      HandlerErr.keyError ≠ HandlerErr.ioNoLabelSvs ∧
      HandlerErr.keyError ≠ HandlerErr.unrecognizedFile) ∧
    do_hamamatsu_ndpi [⟨true, some 40⟩, ⟨true, none⟩] = .error .keyError := by
  constructor
  · exact walk_missing_tag_keyError.1 [some aperioBytes, none] aperioBytes 1
      (by decide) (by decide) (by decide) (by decide)
      (by
        intro j hj
        interval_cases j
        exact ⟨aperioBytes, by decide, by decide⟩)
  · exact walk_missing_tag_keyError.2 [⟨true, some 40⟩, ⟨true, none⟩] ⟨true, some 40⟩ 1
      ⟨true, none⟩ (by decide) (by decide) (by decide) (by decide)
      (by
        intro j hj
        interval_cases j
        exact ⟨⟨true, some 40⟩, 40, by decide, by decide, by decide⟩)

/-! TIFF reader at byte level: TiffFile, TiffDirectory, TiffEntry. -/

/-- The three dialect traits fixed at open time: endianness (le = true for
the II marker), BigTIFF, NDPI. -/
structure Dialect where
  le : Bool
  bigtiff : Bool
  ndpi : Bool
  deriving DecidableEq, Repr

/-- Width of format code D (directory pointer): translated to I on classic
TIFF and to Q on BigTIFF and NDPI. -/
def dSize (d : Dialect) : Nat := if d.bigtiff ∨ d.ndpi then 8 else 4

/-- Width of format code Y (directory entry count): H on classic TIFF and
NDPI, Q on BigTIFF. -/
def ySize (d : Dialect) : Nat := if d.bigtiff then 8 else 2

/-- Width of format code Z (entry count and value-offset fields): I on
classic TIFF and NDPI, Q on BigTIFF. -/
def zSize (d : Dialect) : Nat := if d.bigtiff then 8 else 4

/-- One directory entry as TiffEntry.__init__ reads it: the HHZZ record
(tag, type, count, value_offset) at the remembered start offset. -/
structure TiffEntry where
  start : Nat
  tag : Nat
  type : Nat
  count : Nat
  value_offset : Nat
  deriving DecidableEq, Repr

/-- Byte size of one HHZZ entry record. -/
def entrySize (d : Dialect) : Nat := 2 + 2 + zSize d + zSize d

def parseEntry (d : Dialect) (f : List Nat) (o : Nat) : Option TiffEntry := do
  let tag ← readWord d.le f o 2
  let ty ← readWord d.le f (o + 2) 2
  let cnt ← readWord d.le f (o + 4) (zSize d)
  let voff ← readWord d.le f (o + 4 + zSize d) (zSize d)
  some ⟨o, tag, ty, cnt, voff⟩

def parseEntries (d : Dialect) (f : List Nat) : Nat → Nat → Option (List TiffEntry)
  | _, 0 => some []
  | o, n + 1 => do
    let e ← parseEntry d f o
    let rest ← parseEntries d f (o + entrySize d) n
    some (e :: rest)

/-- Python dict insertion semantics of TiffDirectory.entries: a later entry
with the same tag overwrites an earlier one, so lookup returns the last
entry carrying the tag. -/
def findTag (es : List TiffEntry) (t : Nat) : Option TiffEntry :=
  es.foldl (fun acc e => if e.tag = t then some e else acc) none

/-- Tag membership test (`tag in directory.entries`). -/
def hasTag (es : List TiffEntry) (t : Nat) : Bool :=
  es.any (fun e => e.tag = t)

/-- One parsed directory: its file offset, the location of the pointer that
referred to it, its entries, and out_pointer_offset (the file position after
the last entry, where its own trailing next-IFD pointer lives). -/
structure PDir where
  offset : Nat
  inPtr : Nat
  entries : List TiffEntry
  outPtr : Nat
  deriving DecidableEq, Repr

/-- TiffDirectory.__init__: read the entry count (code Y) at the directory
offset, then count HHZZ entries; out_pointer_offset is the position after
the last entry. -/
def parseDir (d : Dialect) (f : List Nat) (p inP : Nat) : Option PDir := do
  let cnt ← readWord d.le f p (ySize d)
  let es ← parseEntries d f (p + ySize d) cnt
  some ⟨p, inP, es, p + ySize d + cnt * entrySize d⟩

/-- The directory loop of TiffFile.__init__: record in_pointer_offset, read
the next pointer with code D, stop at 0, parse the directory there.  idx is
len(self.directories); after directory 0 of a non-BigTIFF file containing
tag 65420 the NDPI flag switches on, widening code D for every later
pointer read.  fuel bounds the loop and exceeds the directory count in every
theorem that uses the parse. -/
def parseChain (le bigtiff : Bool) (f : List Nat) :
    Bool → Nat → Nat → Nat → Option (List PDir)
  | _, _, _, 0 => none
  | ndpi, ptrOff, idx, fuel + 1 => do
    let ptr ← readWord le f ptrOff (dSize ⟨le, bigtiff, ndpi⟩)
    if ptr = 0 then some []
    else do
      let dir ← parseDir ⟨le, bigtiff, ndpi⟩ f ptr ptrOff
      let ndpi2 :=
        if idx = 0 ∧ bigtiff = false ∧ hasTag dir.entries 65420 = true then true
        else ndpi
      let rest ← parseChain le bigtiff f ndpi2 dir.outPtr (idx + 1) fuel
      some (dir :: rest)

/-- Result of TiffFile.__init__ on a byte file. -/
structure TiffParsed where
  le : Bool
  bigtiff : Bool
  dirs : List PDir
  deriving DecidableEq, Repr

/-- The NDPI activation outcome: tag 65420 present in directory 0 of a
non-BigTIFF file. -/
def ndpiFlag (bigtiff : Bool) (dirs : List PDir) : Bool :=
  match dirs with
  | [] => false
  | d0 :: _ => !bigtiff && hasTag d0.entries 65420

/-- TiffFile.__init__ after the endian marker fixed the struct prefix: the
version word (42, or 43 with the (8, 0) suffix), then the directory chain
from offset 4 (classic) or 8 (BigTIFF).  An empty chain is the
IOError('No directories'). -/
def parseTiffBody (f : List Nat) (fuel : Nat) (le : Bool) : Option TiffParsed := do
  let ver ← readWord le f 2 2
  if ver = 42 then do
    let dirs ← parseChain le false f false 4 0 fuel
    if dirs = [] then none else some ⟨le, false, dirs⟩
  else if ver = 43 then do
    let m2 ← readWord le f 4 2
    let rz ← readWord le f 6 2
    if m2 = 8 ∧ rz = 0 then do
      let dirs ← parseChain le true f false 8 0 fuel
      if dirs = [] then none else some ⟨le, true, dirs⟩
    else none
  else none

/-- TiffFile.__init__: the two-byte endian marker picks the little- or
big-endian struct prefix; any other marker is UnrecognizedFile. -/
def parseTiff (f : List Nat) (fuel : Nat) : Option TiffParsed :=
  if readBytes f 0 2 = [0x49, 0x49] then parseTiffBody f fuel true
  else if readBytes f 0 2 = [0x4D, 0x4D] then parseTiffBody f fuel false
  else none

/-- struct item size for each type code TiffEntry.format_type supports
(BYTE b, ASCII c, SHORT H, LONG I, FLOAT f, DOUBLE d, LONG8 Q). -/
def itemSize : Nat → Option Nat
  | 1 => some 1
  | 2 => some 1
  | 3 => some 2
  | 4 => some 4
  | 11 => some 4
  | 12 => some 8
  | 16 => some 8
  | _ => none

inductive EValue where
  | str (bytes : List Nat)
  | nums (vals : List Nat)
  deriving DecidableEq, Repr

/-- Read count items of width isz starting at loc, as the single
struct.unpack of read_fmt with force_list yields them. -/
def readItems (le : Bool) (f : List Nat) (loc isz : Nat) : Nat → Option (List Nat)
  | 0 => some []
  | n + 1 =>
    match readWord le f loc isz, readItems le f (loc + isz) isz n with
    | some v, some rest => some (v :: rest)
    | _, _ => none

/-- Payload location used by TiffEntry.value: inline right after the HHZ
fields when fmt_size(fmt) ≤ fmt_size(Z), else out of line at the
near-pointer adjusted value_offset. -/
def valueLoc (d : Dialect) (e : TiffEntry) (isz : Nat) : Nat :=
  if e.count * isz ≤ zSize d then e.start + 2 + 2 + zSize d
  else near_pointer d.ndpi e.start e.value_offset

/-- TiffEntry.value for the ASCII and unsigned-integer types.  ASCII values
must end in NUL, which is stripped; the remaining types return their item
tuple.  FLOAT and DOUBLE payloads are IEEE floats and BYTE items are signed
in the source; no operation under verification consumes them, and the model
returns none for those type codes. -/
def entryValue (d : Dialect) (f : List Nat) (e : TiffEntry) : Option EValue :=
  match itemSize e.type with
  | none => none
  | some isz =>
    if e.type = 11 ∨ e.type = 12 ∨ e.type = 1 then none
    else
      match readItems d.le f (valueLoc d e isz) isz e.count with
      | none => none
      | some items =>
        if e.type = 2 then
          match items.getLast? with
          | some 0 => some (.str items.dropLast)
          | _ => none
        else some (.nums items)

/-- Resolve a tag to its numeric value tuple (used by the delete surgeon on
STRIP_OFFSETS 273 and STRIP_BYTE_COUNTS 279; a missing tag is the KeyError
turned into IOError('Directory is not stripped')). -/
def entryNums (d : Dialect) (f : List Nat) (es : List TiffEntry) (t : Nat) :
    Option (List Nat) := do
  let e ← findTag es t
  let v ← entryValue d f e
  match v with
  | .nums l => some l
  | _ => none

/-- The strip-wiping loop of TiffDirectory.delete: for each (offset, length)
pair resolve the offset with near_pointer against out_pointer_offset,
check the expected prefix when one is given (None and the empty string are
falsy and skip the check), and overwrite length bytes with zeros. -/
def zeroStrips (d : Dialect) (outP : Nat) (pre : Option (List Nat)) :
    List Nat → List (Nat × Nat) → Option (List Nat)
  | f, [] => some f
  | f, (off, len) :: rest =>
    let o := near_pointer d.ndpi outP off
    match pre with
    | some p =>
      if p ≠ [] ∧ readBytes f o p.length ≠ p then none
      else zeroStrips d outP pre (writeBytes f o (List.replicate len 0)) rest
    | none => zeroStrips d outP pre (writeBytes f o (List.replicate len 0)) rest

/-- TiffDirectory.delete: resolve the strip offset and length tuples, wipe
every strip, then read the directory's trailing next-IFD pointer at
out_pointer_offset and write its value at in_pointer_offset, splicing the
directory out of the chain. -/
def deleteDirectory (d : Dialect) (f : List Nat) (dir : PDir)
    (pre : Option (List Nat)) : Option (List Nat) := do
  let offsets ← entryNums d f dir.entries 273
  let lengths ← entryNums d f dir.entries 279
  let f1 ← zeroStrips d dir.outPtr pre f (offsets.zip lengths)
  let outv ← readWord d.le f1 dir.outPtr (dSize d)
  some (writeBytes f1 dir.inPtr (encodeWord d.le (dSize d) outv))

/-- TiffEntry.overwrite_entry for ASCII entries: the new payload is padded
with spaces to the length of the old value (count - 1 bytes, the stripped
NUL not included), packed with struct code s (zero-padded or truncated to
count bytes), and written at the raw value_offset field - the source seeks
to self.value_offset unconditionally, for inline values too, and applies no
near-pointer adjustment.  The BYTE branch is not modelled: its chr()
round-trip raises ValueError for any item with the high bit set. -/
def overwrite_entry (d : Dialect) (f : List Nat) (e : TiffEntry)
    (payload : List Nat) : Option (List Nat) :=
  if e.type = 2 then
    match entryValue d f e with
    | some (.str old) =>
      let null_pad := old.length - payload.length
      let newVal := payload ++ List.replicate null_pad 0x20
      let packed := newVal.take e.count ++ List.replicate (e.count - newVal.length) 0
      some (writeBytes f e.value_offset packed)
    | _ => none
  else none

/-- Classic little-endian TIFF. -/
def dClassicLE : Dialect := ⟨true, false, false⟩

theorem decodeWord_single (le : Bool) (b : Nat) : decodeWord le [b] = b % 256 := by
  unfold decodeWord
  cases le <;> simp [decodeLE]

theorem readBytes_cons (f : List Nat) (loc n : Nat) (h : loc < f.length) :
    ∃ b, f[loc]? = some b ∧ readBytes f loc (n + 1) = b :: readBytes f (loc + 1) n := by
  have hb : f[loc]? = some f[loc] := List.getElem?_eq_getElem h
  refine ⟨f[loc], hb, ?_⟩
  apply List.ext_getElem?
  intro j
  rw [readBytes_getElem?]
  cases j with
  | zero =>
    rw [if_pos (by omega)]
    simpa using hb
  | succ j =>
    simp only [List.getElem?_cons_succ]
    rw [readBytes_getElem?]
    by_cases hj : j < n
    · rw [if_pos (by omega), if_pos hj]
      congr 1
      omega
    · rw [if_neg (by omega), if_neg hj]

theorem readItems_length (le : Bool) (f : List Nat) (loc isz n : Nat) (l : List Nat)
    (h : readItems le f loc isz n = some l) : l.length = n := by
  induction n generalizing loc l with
  | zero =>
    unfold readItems at h
    cases h
    rfl
  | succ n ih =>
    unfold readItems at h
    cases hw : readWord le f loc isz with
    | none => rw [hw] at h; exact absurd h (by simp)
    | some v =>
      rw [hw] at h
      cases hr : readItems le f (loc + isz) isz n with
      | none => rw [hr] at h; exact absurd h (by simp)
      | some rest =>
        rw [hr] at h
        simp at h
        rw [← h]
        simp [ih _ _ hr]

theorem readItems_one (le : Bool) (f : List Nat) (loc n : Nat)
    (h : loc + n ≤ f.length) (hb : ∀ b ∈ readBytes f loc n, b < 256) :
    readItems le f loc 1 n = some (readBytes f loc n) := by
  induction n generalizing loc with
  | zero =>
    unfold readItems readBytes
    simp
  | succ n ih =>
    obtain ⟨b, hfb, hcons⟩ := readBytes_cons f loc n (by omega)
    have hw : readWord le f loc 1 = some b := by
      unfold readWord
      rw [if_pos (by omega)]
      have h1 : readBytes f loc 1 = [b] := by
        apply List.ext_getElem?
        intro j
        rw [readBytes_getElem?]
        cases j with
        | zero =>
          rw [if_pos Nat.one_pos]
          simpa using hfb
        | succ j =>
          rw [if_neg (by omega)]
          simp
      rw [h1, decodeWord_single]
      have hblt : b < 256 := hb b (by rw [hcons]; exact List.mem_cons_self _ _)
      rw [Nat.mod_eq_of_lt hblt]
    unfold readItems
    rw [hw, ih (loc + 1) (by omega) ?hbs]
    · rw [hcons]
    case hbs =>
      intro x hx
      apply hb
      rw [hcons]
      exact List.mem_cons_of_mem _ hx

/-- TiffEntry.value on an out-of-line NUL-terminated ASCII entry outside
NDPI mode: the payload is read at the raw value_offset and returned with the
NUL stripped. -/
theorem entryValue_ascii (d : Dialect) (f : List Nat) (e : TiffEntry)
    (items : List Nat)
    (htype : e.type = 2) (hout : zSize d < e.count) (hnd : d.ndpi = false)
    (hitems : readItems d.le f e.value_offset 1 e.count = some items)
    (hlast : items.getLast? = some 0) :
    entryValue d f e = some (.str items.dropLast) := by
  have hloc : valueLoc d e 1 = e.value_offset := by
    unfold valueLoc
    rw [if_neg (by omega)]
    exact near_pointer_id d.ndpi e.start e.value_offset (Or.inl hnd)
  unfold entryValue
  rw [htype]
  simp only [itemSize]
  rw [if_neg (by norm_num : ¬((2 : Nat) = 11 ∨ (2 : Nat) = 12 ∨ (2 : Nat) = 1))]
  rw [hloc, hitems]
  simp only [if_pos rfl]
  rw [hlast]
  simp

/-- The inline ASCII example file used for the C4 counterexample: one HHZZ
entry record for tag 270, type ASCII, count 4, whose inline payload bytes
(61 00 00 00) double as value_offset = 97, followed by padding up to 104
bytes. -/
def c4File : List Nat :=
  [0x0E, 0x01, 0x02, 0x00, 0x04, 0x00, 0x00, 0x00, 0x61, 0x00, 0x00, 0x00]
    ++ List.replicate 92 0

/-- C4 counterexample: on an inline ASCII entry (count 4, classic little
endian) parsed from the file, overwrite_entry seeks to the raw value_offset
field (here 97, the inline payload bytes read as an offset) instead of the
inline payload location, so a subsequent value() still returns the old
payload rather than the new payload padded to the original count. -/
theorem overwrite_entry_inline_counterexample :
    parseEntry dClassicLE c4File 0 = some ⟨0, 270, 2, 4, 97⟩ ∧
    entryValue dClassicLE c4File ⟨0, 270, 2, 4, 97⟩ = some (.str [0x61, 0, 0]) ∧
    overwrite_entry dClassicLE c4File ⟨0, 270, 2, 4, 97⟩ [0x42]
      = some (writeBytes c4File 97 [0x42, 0x20, 0x20, 0]) ∧
    entryValue dClassicLE (writeBytes c4File 97 [0x42, 0x20, 0x20, 0]) ⟨0, 270, 2, 4, 97⟩
      = some (.str [0x61, 0, 0]) ∧
    EValue.str [0x61, 0, 0] ≠ EValue.str ([0x42] ++ List.replicate 2 0x20) := by
  decide

/-- C4 amended: overwrite_entry always writes at the raw value_offset field,
with no inline case and no near-pointer adjustment, so the claimed behavior
holds for out-of-line ASCII entries outside NDPI mode: the new payload (at
most count - 1 bytes, the length of the old value) is written at
value_offset padded with 0x20 to count - 1 bytes plus the NUL terminator,
count and type are untouched, and a subsequent value() returns the payload
padded with 0x20 to count - 1 bytes (the original count includes the
stripped NUL).  For inline entries the write lands at whatever address the
inline payload bytes denote, and the BYTE branch raises ValueError on any
item with the high bit set. -/
theorem overwrite_entry_spec (d : Dialect) (f : List Nat) (e : TiffEntry)
    (payload items : List Nat)
    (htype : e.type = 2) (hout : zSize d < e.count) (hnd : d.ndpi = false)
    (hitems : readItems d.le f e.value_offset 1 e.count = some items)
    (hlast : items.getLast? = some 0)
    (hplen : payload.length ≤ e.count - 1)
    (hpbytes : ∀ b ∈ payload, b < 256)
    (hrange : e.value_offset + e.count ≤ f.length) :
    ∃ g, overwrite_entry d f e payload = some g ∧
      g.length = f.length ∧
      entryValue d g e
        = some (.str (payload ++ List.replicate (e.count - 1 - payload.length) 0x20)) := by
  have hcount1 : 1 ≤ e.count := by
    have : 4 ≤ zSize d := by
      unfold zSize
      by_cases hb : d.bigtiff <;> simp [hb]
    omega
  have hilen : items.length = e.count := readItems_length _ _ _ _ _ _ hitems
  have hold : entryValue d f e = some (.str items.dropLast) :=
    entryValue_ascii d f e items htype hout hnd hitems hlast
  have holdlen : items.dropLast.length = e.count - 1 := by
    rw [List.length_dropLast, hilen]
  set newVal := payload ++ List.replicate (items.dropLast.length - payload.length) 0x20
    with hnewVal
  have hnewlen : newVal.length = e.count - 1 := by
    rw [hnewVal]
    simp only [List.length_append, List.length_replicate]
    omega
  have hpacked : newVal.take e.count ++ List.replicate (e.count - newVal.length) 0
      = newVal ++ [0] := by
    rw [List.take_of_length_le (by omega), hnewlen]
    congr 1
    have h1 : e.count - (e.count - 1) = 1 := by omega
    rw [h1]
    rfl
  have hglen : (writeBytes f e.value_offset (newVal ++ [0])).length = f.length := by
    rw [writeBytes_length]
    simp only [List.length_append, List.length_cons, List.length_nil, hnewlen]
    omega
  refine ⟨writeBytes f e.value_offset (newVal ++ [0]), ?_, hglen, ?_⟩
  · unfold overwrite_entry
    rw [if_pos htype, hold]
    simp only
    rw [hpacked]
  · have hpblen : (newVal ++ [0]).length = e.count := by
      simp only [List.length_append, List.length_cons, List.length_nil, hnewlen]
      omega
    have hrb : readBytes (writeBytes f e.value_offset (newVal ++ [0])) e.value_offset e.count
        = newVal ++ [0] := by
      have := readBytes_writeBytes_self f (newVal ++ [0]) e.value_offset
        (by rw [hpblen]; omega)
      rw [hpblen] at this
      exact this
    have hri : readItems d.le (writeBytes f e.value_offset (newVal ++ [0]))
        e.value_offset 1 e.count = some (newVal ++ [0]) := by
      have h1 := readItems_one d.le (writeBytes f e.value_offset (newVal ++ [0]))
        e.value_offset e.count (by rw [hglen]; omega) ?hbs
      · rw [hrb] at h1
        exact h1
      case hbs =>
        intro b hbmem
        rw [hrb] at hbmem
        rw [List.mem_append] at hbmem
        rcases hbmem with hbm | hbm
        · rw [hnewVal, List.mem_append] at hbm
          rcases hbm with hbm | hbm
          · exact hpbytes b hbm
          · rw [List.eq_of_mem_replicate hbm]
            norm_num
        · simp at hbm
          rw [hbm]
          norm_num
    have hfin := entryValue_ascii d (writeBytes f e.value_offset (newVal ++ [0])) e
      (newVal ++ [0]) htype hout hnd hri (List.getLast?_concat _)
    rw [hfin, List.dropLast_concat]
    rw [hnewVal, holdlen]

/-- C4 witness: an out-of-line ASCII entry (count 6 > 4, classic little
endian) with payload ABCDE NUL at offset 12; overwriting with X yields
X followed by four spaces on a subsequent value() read. -/
theorem overwrite_entry_spec_witness :
    ∃ g, overwrite_entry dClassicLE
        ([0x0E, 0x01, 0x02, 0x00, 0x06, 0x00, 0x00, 0x00, 0x0C, 0x00, 0x00, 0x00,
          0x41, 0x42, 0x43, 0x44, 0x45, 0x00]) ⟨0, 270, 2, 6, 12⟩ [0x58] = some g ∧
      g.length = ([0x0E, 0x01, 0x02, 0x00, 0x06, 0x00, 0x00, 0x00, 0x0C, 0x00, 0x00, 0x00,
          0x41, 0x42, 0x43, 0x44, 0x45, 0x00] : List Nat).length ∧
      entryValue dClassicLE g ⟨0, 270, 2, 6, 12⟩
        = some (.str ([0x58] ++ List.replicate (6 - 1 - ([0x58] : List Nat).length) 0x20)) :=
  overwrite_entry_spec dClassicLE
    [0x0E, 0x01, 0x02, 0x00, 0x06, 0x00, 0x00, 0x00, 0x0C, 0x00, 0x00, 0x00,
      0x41, 0x42, 0x43, 0x44, 0x45, 0x00] ⟨0, 270, 2, 6, 12⟩ [0x58]
    [0x41, 0x42, 0x43, 0x44, 0x45, 0x00]
    (by decide) (by decide) (by decide) (by decide) (by decide) (by decide)
    (by decide) (by decide)

/-! Infrastructure for the directory-delete theorem (C1): the resolved strip
ranges, interval bookkeeping, and congruence of the parser under agreement
of the bytes it reads. -/

/-- The strip ranges TiffDirectory.delete wipes: each offset resolved with
near_pointer against out_pointer_offset, paired with its length. -/
def stripRanges (d : Dialect) (outP : Nat) (ps : List (Nat × Nat)) : List (Nat × Nat) :=
  ps.map fun p => (near_pointer d.ndpi outP p.1, p.2)

/-- Zero every given (offset, length) range in order. -/
def zeroAll (f : List Nat) (rs : List (Nat × Nat)) : List Nat :=
  rs.foldl (fun g r => writeBytes g r.1 (List.replicate r.2 0)) f

/-- i lies in the half-open byte range r. -/
abbrev inRange (i : Nat) (r : Nat × Nat) : Prop := r.1 ≤ i ∧ i < r.1 + r.2

/-- The two half-open byte ranges do not overlap. -/
abbrev rdisjoint (r s : Nat × Nat) : Prop := r.1 + r.2 ≤ s.1 ∨ s.1 + s.2 ≤ r.1

theorem zeroStrips_none (d : Dialect) (outP : Nat) :
    ∀ (ps : List (Nat × Nat)) (f : List Nat),
    zeroStrips d outP none f ps = some (zeroAll f (stripRanges d outP ps)) := by
  intro ps
  induction ps with
  | nil => intro f; rfl
  | cons p rest ih =>
    intro f
    show zeroStrips d outP none
        (writeBytes f (near_pointer d.ndpi outP p.1) (List.replicate p.2 0)) rest
      = some (zeroAll f (stripRanges d outP (p :: rest)))
    rw [ih]
    rfl

theorem zeroAll_length (rs : List (Nat × Nat)) :
    ∀ f : List Nat, (∀ r ∈ rs, r.1 + r.2 ≤ f.length) →
    (zeroAll f rs).length = f.length := by
  induction rs with
  | nil => intro f _; rfl
  | cons r0 rest ih =>
    intro f h
    unfold zeroAll
    rw [List.foldl_cons]
    have h0 : r0.1 + r0.2 ≤ f.length := h r0 (List.mem_cons_self _ _)
    have hw : (writeBytes f r0.1 (List.replicate r0.2 0)).length = f.length := by
      rw [writeBytes_length]
      rw [List.length_replicate]
      exact h0
    have := ih (writeBytes f r0.1 (List.replicate r0.2 0)) ?hb
    · unfold zeroAll at this
      rw [this, hw]
    case hb =>
      intro r hr
      rw [hw]
      exact h r (List.mem_cons_of_mem _ hr)

theorem zeroAll_outside (rs : List (Nat × Nat)) :
    ∀ (f : List Nat) (i : Nat), (∀ r ∈ rs, r.1 + r.2 ≤ f.length) →
    (∀ r ∈ rs, ¬ inRange i r) →
    (zeroAll f rs)[i]? = f[i]? := by
  induction rs with
  | nil => intro f i _ _; rfl
  | cons r0 rest ih =>
    intro f i h hout
    have h0 : r0.1 + r0.2 ≤ f.length := h r0 (List.mem_cons_self _ _)
    have hw : (writeBytes f r0.1 (List.replicate r0.2 0)).length = f.length := by
      rw [writeBytes_length]
      rw [List.length_replicate]
      exact h0
    unfold zeroAll
    rw [List.foldl_cons]
    have step := ih (writeBytes f r0.1 (List.replicate r0.2 0)) i
      (fun r hr => by rw [hw]; exact h r (List.mem_cons_of_mem _ hr))
      (fun r hr => hout r (List.mem_cons_of_mem _ hr))
    unfold zeroAll at step
    rw [step]
    rw [writeBytes_getElem? _ _ _ _ (by rw [List.length_replicate]; exact h0)]
    rw [if_neg]
    have := hout r0 (List.mem_cons_self _ _)
    unfold inRange at this
    rw [List.length_replicate]
    omega

theorem zeroAll_inside (rs : List (Nat × Nat)) :
    ∀ (f : List Nat) (i : Nat) (r : Nat × Nat), (∀ s ∈ rs, s.1 + s.2 ≤ f.length) →
    r ∈ rs → inRange i r →
    (zeroAll f rs)[i]? = some 0 := by
  induction rs with
  | nil =>
    intro f i r _ hr
    exact absurd hr (List.not_mem_nil r)
  | cons r0 rest ih =>
    intro f i r h hr hin
    have h0 : r0.1 + r0.2 ≤ f.length := h r0 (List.mem_cons_self _ _)
    have hw : (writeBytes f r0.1 (List.replicate r0.2 0)).length = f.length := by
      rw [writeBytes_length]
      rw [List.length_replicate]
      exact h0
    unfold zeroAll
    rw [List.foldl_cons]
    have hrest : ∀ s ∈ rest, s.1 + s.2 ≤ (writeBytes f r0.1 (List.replicate r0.2 0)).length := by
      intro s hs
      rw [hw]
      exact h s (List.mem_cons_of_mem _ hs)
    by_cases hcase : ∃ s ∈ rest, inRange i s
    · obtain ⟨s, hs, hins⟩ := hcase
      have := ih (writeBytes f r0.1 (List.replicate r0.2 0)) i s hrest hs hins
      unfold zeroAll at this
      rw [this]
    · push_neg at hcase
      rcases List.mem_cons.mp hr with hr0 | hrr
      · have step := zeroAll_outside rest (writeBytes f r0.1 (List.replicate r0.2 0)) i
          hrest hcase
        unfold zeroAll at step
        rw [step]
        rw [writeBytes_getElem? _ _ _ _ (by rw [List.length_replicate]; exact h0)]
        subst hr0
        unfold inRange at hin
        rw [if_pos (by rw [List.length_replicate]; omega)]
        rw [List.getElem?_replicate, if_pos (by omega)]
      · exact absurd hin (hcase r hrr)

/-- Agreement of two byte files on the half-open interval [a, a + n). -/
def agreeOn (g f : List Nat) (a n : Nat) : Prop :=
  ∀ i, a ≤ i → i < a + n → g[i]? = f[i]?

theorem agreeOn_mono (g f : List Nat) (a n a2 n2 : Nat)
    (h : agreeOn g f a n) (h1 : a ≤ a2) (h2 : a2 + n2 ≤ a + n) :
    agreeOn g f a2 n2 := by
  intro i hi1 hi2
  exact h i (by omega) (by omega)

theorem readBytes_congr (g f : List Nat) (off n : Nat) (hag : agreeOn g f off n) :
    readBytes g off n = readBytes f off n := by
  apply List.ext_getElem?
  intro j
  rw [readBytes_getElem?, readBytes_getElem?]
  by_cases hj : j < n
  · rw [if_pos hj, if_pos hj]
    exact hag (off + j) (by omega) (by omega)
  · rw [if_neg hj, if_neg hj]

theorem readWord_congr (le : Bool) (g f : List Nat) (off w : Nat)
    (hlen : g.length = f.length) (hag : agreeOn g f off w) :
    readWord le g off w = readWord le f off w := by
  unfold readWord
  rw [hlen, readBytes_congr g f off w hag]

theorem parseEntry_congr (d : Dialect) (g f : List Nat) (o : Nat)
    (hlen : g.length = f.length) (hag : agreeOn g f o (entrySize d)) :
    parseEntry d g o = parseEntry d f o := by
  unfold parseEntry
  rw [readWord_congr d.le g f o 2 hlen
      (agreeOn_mono _ _ _ _ _ _ hag (le_refl o) (by unfold entrySize; omega)),
    readWord_congr d.le g f (o + 2) 2 hlen
      (agreeOn_mono _ _ _ _ _ _ hag (by omega) (by unfold entrySize; omega)),
    readWord_congr d.le g f (o + 4) (zSize d) hlen
      (agreeOn_mono _ _ _ _ _ _ hag (by omega) (by unfold entrySize; omega)),
    readWord_congr d.le g f (o + 4 + zSize d) (zSize d) hlen
      (agreeOn_mono _ _ _ _ _ _ hag (by omega) (by unfold entrySize; omega))]

theorem parseEntries_congr (d : Dialect) (g f : List Nat)
    (hlen : g.length = f.length) :
    ∀ (n o : Nat), agreeOn g f o (n * entrySize d) →
    parseEntries d g o n = parseEntries d f o n := by
  intro n
  induction n with
  | zero => intro o _; rfl
  | succ n ih =>
    intro o hag
    unfold parseEntries
    rw [parseEntry_congr d g f o hlen
      (agreeOn_mono _ _ _ _ _ _ hag (le_refl o) (by
        have : entrySize d ≤ (n + 1) * entrySize d := by
          have := Nat.le_mul_of_pos_left (entrySize d) (show 0 < n + 1 by omega)
          omega
        omega))]
    rw [ih (o + entrySize d)
      (agreeOn_mono _ _ _ _ _ _ hag (by omega) (by
        have : (n + 1) * entrySize d = n * entrySize d + entrySize d := by ring
        omega))]

theorem parseDir_congr (d : Dialect) (g f : List Nat) (p inP inP2 : Nat) (dir : PDir)
    (hlen : g.length = f.length)
    (hpd : parseDir d f p inP = some dir)
    (hag : agreeOn g f dir.offset (dir.outPtr - dir.offset)) :
    parseDir d g p inP2 = some ⟨dir.offset, inP2, dir.entries, dir.outPtr⟩ := by
  unfold parseDir at hpd ⊢
  cases hw : readWord d.le f p (ySize d) with
  | none =>
    rw [hw] at hpd
    simp only [Option.bind_eq_bind, Option.none_bind] at hpd
    exact Option.noConfusion hpd
  | some cnt =>
    rw [hw] at hpd
    simp only [Option.bind_eq_bind, Option.some_bind] at hpd
    cases hes : parseEntries d f (p + ySize d) cnt with
    | none =>
      rw [hes] at hpd
      simp only [Option.none_bind] at hpd
      exact Option.noConfusion hpd
    | some es =>
      rw [hes] at hpd
      simp only [Option.some_bind, Option.some_inj] at hpd
      have hoff : dir.offset = p := by rw [← hpd]
      have houtp : dir.outPtr = p + ySize d + cnt * entrySize d := by rw [← hpd]
      have hent : dir.entries = es := by rw [← hpd]
      have hagw : agreeOn g f p (ySize d) :=
        agreeOn_mono _ _ _ _ _ _ hag (by omega) (by
          rw [hoff, houtp]
          omega)
      have hages : agreeOn g f (p + ySize d) (cnt * entrySize d) :=
        agreeOn_mono _ _ _ _ _ _ hag (by omega) (by
          rw [hoff, houtp]
          omega)
      rw [readWord_congr d.le g f p (ySize d) hlen hagw, hw]
      simp only [Option.bind_eq_bind, Option.some_bind]
      rw [parseEntries_congr d g f hlen cnt (p + ySize d) hages, hes]
      simp only [Option.some_bind, Option.some_inj]
      rw [hoff, hent, houtp]

theorem parseChain_succ_inv (le bt ndpi : Bool) (f : List Nat) (q idx fuel : Nat)
    (L : List PDir)
    (h : parseChain le bt f ndpi q idx (fuel + 1) = some L) :
    ∃ ptr, readWord le f q (dSize ⟨le, bt, ndpi⟩) = some ptr ∧
      ((ptr = 0 ∧ L = []) ∨
       (ptr ≠ 0 ∧ ∃ dir rest, parseDir ⟨le, bt, ndpi⟩ f ptr q = some dir ∧
         parseChain le bt f
           (if idx = 0 ∧ bt = false ∧ hasTag dir.entries 65420 = true then true else ndpi)
           dir.outPtr (idx + 1) fuel = some rest ∧
         L = dir :: rest)) := by
  unfold parseChain at h
  cases hw : readWord le f q (dSize ⟨le, bt, ndpi⟩) with
  | none =>
    rw [hw] at h
    simp only [Option.bind_eq_bind, Option.none_bind] at h
    exact Option.noConfusion h
  | some ptr =>
    rw [hw] at h
    simp only [Option.bind_eq_bind, Option.some_bind] at h
    refine ⟨ptr, rfl, ?_⟩
    by_cases hp : ptr = 0
    · rw [if_pos hp] at h
      simp only [Option.some_inj] at h
      exact Or.inl ⟨hp, h.symm⟩
    · rw [if_neg hp] at h
      refine Or.inr ⟨hp, ?_⟩
      cases hd : parseDir ⟨le, bt, ndpi⟩ f ptr q with
      | none =>
        rw [hd] at h
        simp only [Option.none_bind] at h
        exact Option.noConfusion h
      | some dir =>
        rw [hd] at h
        simp only [Option.some_bind] at h
        cases hrest : parseChain le bt f
            (if idx = 0 ∧ bt = false ∧ hasTag dir.entries 65420 = true then true else ndpi)
            dir.outPtr (idx + 1) fuel with
        | none =>
          rw [hrest] at h
          simp only [Option.none_bind] at h
          exact Option.noConfusion h
        | some rest =>
          rw [hrest] at h
          simp only [Option.some_bind, Option.some_inj] at h
          exact ⟨dir, rest, rfl, hrest, h.symm⟩

theorem parseChain_term_build (le bt ndpi : Bool) (f : List Nat) (q idx fuel : Nat)
    (hw : readWord le f q (dSize ⟨le, bt, ndpi⟩) = some 0) :
    parseChain le bt f ndpi q idx (fuel + 1) = some [] := by
  unfold parseChain
  rw [hw]
  simp only [Option.bind_eq_bind, Option.some_bind]
  rw [if_pos trivial]

theorem parseChain_succ_build (le bt ndpi : Bool) (f : List Nat) (q idx fuel : Nat)
    (ptr : Nat) (dir : PDir) (rest : List PDir)
    (hw : readWord le f q (dSize ⟨le, bt, ndpi⟩) = some ptr) (hp : ptr ≠ 0)
    (hd : parseDir ⟨le, bt, ndpi⟩ f ptr q = some dir)
    (hrest : parseChain le bt f
      (if idx = 0 ∧ bt = false ∧ hasTag dir.entries 65420 = true then true else ndpi)
      dir.outPtr (idx + 1) fuel = some rest) :
    parseChain le bt f ndpi q idx (fuel + 1) = some (dir :: rest) := by
  unfold parseChain
  rw [hw]
  simp only [Option.bind_eq_bind, Option.some_bind]
  rw [if_neg hp, hd]
  simp only [Option.some_bind]
  rw [hrest]
  rfl

theorem activation_succ (bt ndpi : Bool) (es : List TiffEntry) (idx : Nat)
    (h : 1 ≤ idx) :
    (if idx = 0 ∧ bt = false ∧ hasTag es 65420 = true then true else ndpi) = ndpi := by
  rw [if_neg]
  rintro ⟨h0, _⟩
  omega

theorem parseDir_inv (d : Dialect) (f : List Nat) (p inP : Nat) (dir : PDir)
    (h : parseDir d f p inP = some dir) :
    dir.offset = p ∧ dir.inPtr = inP ∧
    ∃ cnt, readWord d.le f p (ySize d) = some cnt ∧
      parseEntries d f (p + ySize d) cnt = some dir.entries ∧
      dir.outPtr = p + ySize d + cnt * entrySize d := by
  unfold parseDir at h
  cases hw : readWord d.le f p (ySize d) with
  | none =>
    rw [hw] at h
    simp only [Option.bind_eq_bind, Option.none_bind] at h
    exact Option.noConfusion h
  | some cnt =>
    rw [hw] at h
    simp only [Option.bind_eq_bind, Option.some_bind] at h
    cases hes : parseEntries d f (p + ySize d) cnt with
    | none =>
      rw [hes] at h
      simp only [Option.none_bind] at h
      exact Option.noConfusion h
    | some es =>
      rw [hes] at h
      simp only [Option.some_bind, Option.some_inj] at h
      refine ⟨by rw [← h], by rw [← h], cnt, rfl, ?_, by rw [← h]⟩
      rw [← h]
      exact hes

theorem parseChain_facts (le bt ndpi : Bool) (f : List Nat) :
    ∀ fuel q idx L, parseChain le bt f ndpi q idx fuel = some L → 1 ≤ idx →
    (∀ dir : PDir, L[0]? = some dir → dir.inPtr = q) ∧
    (∀ (j : Nat) (dir dir2 : PDir), L[j]? = some dir → L[j + 1]? = some dir2 →
      dir2.inPtr = dir.outPtr) ∧
    (∀ (j : Nat) (dir : PDir), L[j]? = some dir →
      readWord le f dir.inPtr (dSize ⟨le, bt, ndpi⟩) = some dir.offset ∧
      dir.offset ≠ 0 ∧
      parseDir ⟨le, bt, ndpi⟩ f dir.offset dir.inPtr = some dir ∧
      ∃ v, readWord le f dir.outPtr (dSize ⟨le, bt, ndpi⟩) = some v) := by
  intro fuel
  induction fuel with
  | zero =>
    intro q idx L h hidx
    exact absurd h (by simp [parseChain])
  | succ fuel ih =>
    intro q idx L h hidx
    obtain ⟨ptr, hw, hcase⟩ := parseChain_succ_inv le bt ndpi f q idx fuel L h
    rcases hcase with ⟨hp0, hL⟩ | ⟨hptr, dir, rest, hd, hrest, hL⟩
    · subst hL
      refine ⟨?_, ?_, ?_⟩
      · intro dir hdir
        exact absurd hdir (by simp)
      · intro j dir dir2 hdir
        exact absurd hdir (by simp)
      · intro j dir hdir
        exact absurd hdir (by simp)
    · subst hL
      rw [activation_succ bt ndpi dir.entries idx hidx] at hrest
      obtain ⟨ih0, ihsucc, ihfacts⟩ := ih dir.outPtr (idx + 1) rest hrest (by omega)
      obtain ⟨hdoff, hdin, _⟩ := parseDir_inv _ f ptr q dir hd
      have hfuelpos : ∃ fuel2, fuel = fuel2 + 1 := by
        cases fuel with
        | zero => exact absurd hrest (by simp [parseChain])
        | succ fuel2 => exact ⟨fuel2, rfl⟩
      obtain ⟨fuel2, hfuel2⟩ := hfuelpos
      subst hfuel2
      obtain ⟨v, hv, _⟩ := parseChain_succ_inv le bt ndpi f dir.outPtr (idx + 1) fuel2
        rest hrest
      refine ⟨?_, ?_, ?_⟩
      · intro dir0 hdir0
        simp only [List.getElem?_cons_zero, Option.some_inj] at hdir0
        rw [← hdir0, hdin]
      · intro j dira dirb hja hjb
        cases j with
        | zero =>
          simp only [List.getElem?_cons_zero, Option.some_inj] at hja
          simp only [List.getElem?_cons_succ] at hjb
          rw [← hja]
          exact ih0 dirb hjb
        | succ j =>
          simp only [List.getElem?_cons_succ] at hja hjb
          exact ihsucc j dira dirb hja hjb
      · intro j dira hja
        cases j with
        | zero =>
          simp only [List.getElem?_cons_zero, Option.some_inj] at hja
          have hfact : readWord le f dir.inPtr (dSize ⟨le, bt, ndpi⟩) = some dir.offset ∧
              dir.offset ≠ 0 ∧
              parseDir ⟨le, bt, ndpi⟩ f dir.offset dir.inPtr = some dir ∧
              ∃ v2, readWord le f dir.outPtr (dSize ⟨le, bt, ndpi⟩) = some v2 := by
            rw [hdin, hdoff]
            exact ⟨hw, hptr, hd, v, hv⟩
          rw [← hja]
          exact hfact
        | succ j =>
          simp only [List.getElem?_cons_succ] at hja
          exact ihfacts j dira hja

/-- Congruence of the directory chain: a file that agrees with f on the
entry slot and on every region and pointer slot the chain reads parses to
the same directory list, at any index ≥ 1 and any fuel at least the
original. -/
theorem parseChain_congr (le bt ndpi : Bool) (f g : List Nat)
    (hlen : g.length = f.length) :
    ∀ fuel q idx L, parseChain le bt f ndpi q idx fuel = some L → 1 ≤ idx →
    agreeOn g f q (dSize ⟨le, bt, ndpi⟩) →
    (∀ (j : Nat) (dir : PDir), L[j]? = some dir →
      agreeOn g f dir.offset (dir.outPtr - dir.offset) ∧
      agreeOn g f dir.outPtr (dSize ⟨le, bt, ndpi⟩)) →
    ∀ idx2 fuel2, 1 ≤ idx2 → fuel ≤ fuel2 →
    parseChain le bt g ndpi q idx2 fuel2 = some L := by
  intro fuel
  induction fuel with
  | zero =>
    intro q idx L h
    exact absurd h (by simp [parseChain])
  | succ fuel ih =>
    intro q idx L h hidx hagq hagL idx2 fuel2 hidx2 hf2
    obtain ⟨fuel3, rfl⟩ : ∃ fuel3, fuel2 = fuel3 + 1 := ⟨fuel2 - 1, by omega⟩
    obtain ⟨ptr, hw, hcase⟩ := parseChain_succ_inv le bt ndpi f q idx fuel L h
    have hwg : readWord le g q (dSize ⟨le, bt, ndpi⟩) = some ptr := by
      rw [readWord_congr le g f q _ hlen hagq, hw]
    rcases hcase with ⟨hp0, hL⟩ | ⟨hptr, dir, rest, hd, hrest, hL⟩
    · subst hL hp0
      exact parseChain_term_build le bt ndpi g q idx2 fuel3 hwg
    · subst hL
      rw [activation_succ bt ndpi dir.entries idx hidx] at hrest
      have h0 : (dir :: rest)[0]? = some dir := by simp
      obtain ⟨hreg0, hslot0⟩ := hagL 0 dir h0
      obtain ⟨hdoff, hdin, _⟩ := parseDir_inv _ f ptr q dir hd
      have hdg : parseDir ⟨le, bt, ndpi⟩ g ptr q
          = some ⟨dir.offset, q, dir.entries, dir.outPtr⟩ :=
        parseDir_congr _ g f ptr q q dir hlen hd hreg0
      have hdir_eq : (⟨dir.offset, q, dir.entries, dir.outPtr⟩ : PDir) = dir := by
        cases dir
        simp only at hdoff hdin ⊢
        rw [hdin]
      rw [hdir_eq] at hdg
      have hrestg : parseChain le bt g ndpi dir.outPtr (idx2 + 1) fuel3 = some rest := by
        apply ih dir.outPtr (idx + 1) rest hrest (by omega) hslot0
          (fun j dirj hj => hagL (j + 1) dirj (by simpa using hj))
          (idx2 + 1) fuel3 (by omega) (by omega)
      apply parseChain_succ_build le bt ndpi g q idx2 fuel3 ptr dir rest hwg hptr hdg
      rw [activation_succ bt ndpi dir.entries idx2 hidx2]
      exact hrestg

/-- Position of the pointer slot the chain reads just before parsing element
m: the entry slot for m = 0, else the trailing pointer of element m - 1. -/
def spliceSlotPos (q : Nat) (L : List PDir) : Nat → Nat
  | 0 => q
  | j + 1 =>
    match L[j]? with
    | some dir => dir.outPtr
    | none => 0

theorem spliceSlotPos_cons (q : Nat) (dir : PDir) (rest : List PDir) (j : Nat) :
    spliceSlotPos q (dir :: rest) (j + 1) = spliceSlotPos dir.outPtr rest j := by
  cases j with
  | zero => simp [spliceSlotPos]
  | succ j => simp [spliceSlotPos]

/-- The directory data the reopened file exposes, independent of the
bookkeeping in_pointer_offset (which necessarily moves for the directory
that follows a deleted one). -/
def coreOf (dir : PDir) : Nat × List TiffEntry × Nat :=
  (dir.offset, dir.entries, dir.outPtr)

/-- Parsing a spliced chain: if g agrees with f on everything the chain from
q reads except the slot that pointed at element m - where g instead holds
the word f holds at element m's trailing pointer - then g parses to the same
directory list with element m removed (up to the in-pointer bookkeeping). -/
theorem parseChain_splice (le bt ndpi : Bool) (f g : List Nat)
    (hlen : g.length = f.length) :
    ∀ fuel q idx m L, parseChain le bt f ndpi q idx fuel = some L → 1 ≤ idx →
    m < L.length →
    (m ≠ 0 → agreeOn g f q (dSize ⟨le, bt, ndpi⟩)) →
    (∀ (j : Nat) (dir : PDir), L[j]? = some dir →
      agreeOn g f dir.offset (dir.outPtr - dir.offset)) →
    (∀ (j : Nat) (dir : PDir), L[j]? = some dir → j + 1 ≠ m →
      agreeOn g f dir.outPtr (dSize ⟨le, bt, ndpi⟩)) →
    (∀ dirm : PDir, L[m]? = some dirm →
      readWord le g (spliceSlotPos q L m) (dSize ⟨le, bt, ndpi⟩)
        = readWord le f dirm.outPtr (dSize ⟨le, bt, ndpi⟩)) →
    ∃ L2, parseChain le bt g ndpi q idx fuel = some L2 ∧
      L2.map coreOf = (L.map coreOf).eraseIdx m := by
  intro fuel
  induction fuel with
  | zero =>
    intro q idx m L h
    exact absurd h (by simp [parseChain])
  | succ fuel ih =>
    intro q idx m L h hidx hm hagq hagreg hagslot hsplice
    obtain ⟨ptr, hw, hcase⟩ := parseChain_succ_inv le bt ndpi f q idx fuel L h
    rcases hcase with ⟨hp0, hL⟩ | ⟨hptr, dir, rest, hd, hrest, hL⟩
    · subst hL
      simp at hm
    · subst hL
      rw [activation_succ bt ndpi dir.entries idx hidx] at hrest
      obtain ⟨hdoff, hdin, _⟩ := parseDir_inv _ f ptr q dir hd
      cases m with
      | zero =>
        obtain ⟨fuel4, rfl⟩ : ∃ fuel4, fuel = fuel4 + 1 := by
          cases fuel with
          | zero => exact absurd hrest (by simp [parseChain])
          | succ fuel4 => exact ⟨fuel4, rfl⟩
        obtain ⟨v, hv, hcase2⟩ := parseChain_succ_inv le bt ndpi f dir.outPtr (idx + 1)
          fuel4 rest hrest
        have hwg : readWord le g q (dSize ⟨le, bt, ndpi⟩) = some v := by
          have hs := hsplice dir (by simp)
          have hss : spliceSlotPos q (dir :: rest) 0 = q := rfl
          rw [hss] at hs
          rw [hs]
          exact hv
        rcases hcase2 with ⟨hv0, hrestnil⟩ | ⟨hvne, dir2, rest2, hd2, hrest2, hrestL⟩
        · subst hrestnil hv0
          refine ⟨[], parseChain_term_build le bt ndpi g q idx (fuel4 + 1) hwg, ?_⟩
          simp
        · subst hrestL
          rw [activation_succ bt ndpi dir2.entries (idx + 1) (by omega)] at hrest2
          obtain ⟨hd2off, hd2in, _⟩ := parseDir_inv _ f v dir.outPtr dir2 hd2
          have h1 : (dir :: dir2 :: rest2)[1]? = some dir2 := by simp
          have hd2g : parseDir ⟨le, bt, ndpi⟩ g v q
              = some ⟨dir2.offset, q, dir2.entries, dir2.outPtr⟩ :=
            parseDir_congr _ g f v dir.outPtr q dir2 hlen hd2 (hagreg 1 dir2 h1)
          have hrest2g : parseChain le bt g ndpi dir2.outPtr (idx + 1) (fuel4 + 1)
              = some rest2 := by
            apply parseChain_congr le bt ndpi f g hlen fuel4 dir2.outPtr (idx + 2)
              rest2 hrest2 (by omega)
              (hagslot 1 dir2 h1 (by omega))
              (fun j dirj hj => ⟨hagreg (j + 2) dirj (by simpa using hj),
                hagslot (j + 2) dirj (by simpa using hj) (by omega)⟩)
              (idx + 1) (fuel4 + 1) (by omega) (by omega)
          refine ⟨⟨dir2.offset, q, dir2.entries, dir2.outPtr⟩ :: rest2, ?_, ?_⟩
          · apply parseChain_succ_build le bt ndpi g q idx (fuel4 + 1) v
              ⟨dir2.offset, q, dir2.entries, dir2.outPtr⟩ rest2 hwg hvne hd2g
            rw [activation_succ bt ndpi dir2.entries idx hidx]
            exact hrest2g
          · simp only [List.map_cons, List.eraseIdx_cons_zero, coreOf]
      | succ m0 =>
        have hwg : readWord le g q (dSize ⟨le, bt, ndpi⟩) = some ptr := by
          rw [readWord_congr le g f q _ hlen (hagq (by omega)), hw]
        have h0 : (dir :: rest)[0]? = some dir := by simp
        have hdg : parseDir ⟨le, bt, ndpi⟩ g ptr q
            = some ⟨dir.offset, q, dir.entries, dir.outPtr⟩ :=
          parseDir_congr _ g f ptr q q dir hlen hd (hagreg 0 dir h0)
        have hdir_eq : (⟨dir.offset, q, dir.entries, dir.outPtr⟩ : PDir) = dir := by
          cases dir
          simp only at hdoff hdin ⊢
          rw [hdin]
        rw [hdir_eq] at hdg
        obtain ⟨rest2, hrest2g, hcores⟩ := ih dir.outPtr (idx + 1) m0 rest hrest
          (by omega) (by simpa using hm)
          (fun hne => hagslot 0 dir h0 (by omega))
          (fun j dirj hj => hagreg (j + 1) dirj (by simpa using hj))
          (fun j dirj hj hjne => hagslot (j + 1) dirj (by simpa using hj) (by omega))
          (fun dirm hdirm => by
            have := hsplice dirm (by simpa using hdirm)
            rw [← this, spliceSlotPos_cons])
        refine ⟨dir :: rest2, ?_, ?_⟩
        · apply parseChain_succ_build le bt ndpi g q idx fuel ptr dir rest2 hwg hptr hdg
          rw [activation_succ bt ndpi dir.entries idx hidx]
          exact hrest2g
        · simp only [List.map_cons, List.eraseIdx_cons_succ, hcores]

theorem readWord_some_range (le : Bool) (f : List Nat) (off w v : Nat)
    (h : readWord le f off w = some v) : off + w ≤ f.length := by
  unfold readWord at h
  by_cases hr : off + w ≤ f.length
  · exact hr
  · rw [if_neg hr] at h
    exact Option.noConfusion h

theorem readWord_lt (le : Bool) (f : List Nat) (off w v : Nat)
    (h : readWord le f off w = some v) : v < 256 ^ w := by
  have hr := readWord_some_range le f off w v h
  unfold readWord at h
  rw [if_pos hr] at h
  simp only [Option.some_inj] at h
  rw [← h]
  have := decodeWord_lt le (readBytes f off w)
  rw [readBytes_full f off w hr] at this
  exact this

theorem readWord_writeBytes_encode (le : Bool) (f : List Nat) (off w v : Nat)
    (hr : off + w ≤ f.length) (hv : v < 256 ^ w) :
    readWord le (writeBytes f off (encodeWord le w v)) off w = some v := by
  have hel : (encodeWord le w v).length = w := encodeWord_length le w v
  have hlen : (writeBytes f off (encodeWord le w v)).length = f.length := by
    rw [writeBytes_length]
    rw [hel]
    exact hr
  unfold readWord
  rw [if_pos (by rw [hlen]; exact hr)]
  have hrb : readBytes (writeBytes f off (encodeWord le w v)) off w
      = encodeWord le w v := by
    have h2 := readBytes_writeBytes_self f (encodeWord le w v) off (by rw [hel]; exact hr)
    rw [hel] at h2
    exact h2
  rw [hrb, decodeWord_encodeWord, Nat.mod_eq_of_lt hv]

theorem activation_zero (bt : Bool) (es : List TiffEntry) :
    (if (0 : Nat) = 0 ∧ bt = false ∧ hasTag es 65420 = true then true else false)
      = (!bt && hasTag es 65420) := by
  cases bt <;> cases h : hasTag es 65420 <;> simp [h]

theorem parseTiffBody_inv (f : List Nat) (fuel : Nat) (le le2 bt : Bool)
    (dirs : List PDir)
    (h : parseTiffBody f fuel le = some ⟨le2, bt, dirs⟩) :
    le2 = le ∧ dirs ≠ [] ∧
    parseChain le bt f false (if bt = true then 8 else 4) 0 fuel = some dirs ∧
    ((bt = false ∧ readWord le f 2 2 = some 42) ∨
     (bt = true ∧ readWord le f 2 2 = some 43 ∧ readWord le f 4 2 = some 8 ∧
       readWord le f 6 2 = some 0)) := by
  unfold parseTiffBody at h
  cases hver : readWord le f 2 2 with
  | none =>
    rw [hver] at h
    simp only [Option.bind_eq_bind, Option.none_bind] at h
    exact Option.noConfusion h
  | some ver =>
    rw [hver] at h
    simp only [Option.bind_eq_bind, Option.some_bind] at h
    by_cases h42 : ver = 42
    · rw [if_pos h42] at h
      cases hch : parseChain le false f false 4 0 fuel with
      | none =>
        rw [hch] at h
        simp only [Option.none_bind] at h
        exact Option.noConfusion h
      | some dirs0 =>
        rw [hch] at h
        simp only [Option.some_bind] at h
        by_cases hnil : dirs0 = []
        · rw [if_pos hnil] at h
          exact Option.noConfusion h
        · rw [if_neg hnil] at h
          simp only [Option.some_inj] at h
          injection h with h1 h2 h3
          subst h1
          subst h2
          subst h3
          exact ⟨rfl, hnil, hch, Or.inl ⟨rfl, by rw [h42]⟩⟩
    · rw [if_neg h42] at h
      by_cases h43 : ver = 43
      · rw [if_pos h43] at h
        cases hm2 : readWord le f 4 2 with
        | none =>
          rw [hm2] at h
          simp only [Option.none_bind] at h
          exact Option.noConfusion h
        | some m2 =>
          rw [hm2] at h
          simp only [Option.some_bind] at h
          cases hrz : readWord le f 6 2 with
          | none =>
            rw [hrz] at h
            simp only [Option.none_bind] at h
            exact Option.noConfusion h
          | some rz =>
            rw [hrz] at h
            simp only [Option.some_bind] at h
            by_cases h80 : m2 = 8 ∧ rz = 0
            · rw [if_pos h80] at h
              cases hch : parseChain le true f false 8 0 fuel with
              | none =>
                rw [hch] at h
                simp only [Option.none_bind] at h
                exact Option.noConfusion h
              | some dirs0 =>
                rw [hch] at h
                simp only [Option.some_bind] at h
                by_cases hnil : dirs0 = []
                · rw [if_pos hnil] at h
                  exact Option.noConfusion h
                · rw [if_neg hnil] at h
                  simp only [Option.some_inj] at h
                  injection h with h1 h2 h3
                  subst h1
                  subst h2
                  subst h3
                  refine ⟨rfl, hnil, hch, Or.inr ⟨rfl, by rw [h43], ?_, ?_⟩⟩
                  · rw [h80.1]
                  · rw [h80.2]
            · rw [if_neg h80] at h
              exact Option.noConfusion h
      · rw [if_neg h43] at h
        exact Option.noConfusion h

theorem parseTiffBody_build (f : List Nat) (fuel : Nat) (le bt : Bool)
    (dirs : List PDir)
    (hver : (bt = false ∧ readWord le f 2 2 = some 42) ∨
      (bt = true ∧ readWord le f 2 2 = some 43 ∧ readWord le f 4 2 = some 8 ∧
        readWord le f 6 2 = some 0))
    (hchain : parseChain le bt f false (if bt = true then 8 else 4) 0 fuel = some dirs)
    (hne : dirs ≠ []) :
    parseTiffBody f fuel le = some ⟨le, bt, dirs⟩ := by
  rcases hver with ⟨hbt, hv⟩ | ⟨hbt, hv, h8, h0⟩
  · subst hbt
    rw [show (if (false : Bool) = true then 8 else 4) = 4 from rfl] at hchain
    unfold parseTiffBody
    rw [hv]
    simp [hchain, hne]
  · subst hbt
    rw [show (if (true : Bool) = true then 8 else 4) = 8 from rfl] at hchain
    unfold parseTiffBody
    rw [hv]
    simp [hchain, h8, h0, hne]

theorem parseTiff_inv (f : List Nat) (fuel : Nat) (tp : TiffParsed)
    (h : parseTiff f fuel = some tp) :
    (readBytes f 0 2 = [0x49, 0x49] ∧ parseTiffBody f fuel true = some tp) ∨
    (readBytes f 0 2 ≠ [0x49, 0x49] ∧ readBytes f 0 2 = [0x4D, 0x4D] ∧
      parseTiffBody f fuel false = some tp) := by
  unfold parseTiff at h
  by_cases h1 : readBytes f 0 2 = [0x49, 0x49]
  · rw [if_pos h1] at h
    exact Or.inl ⟨h1, h⟩
  · rw [if_neg h1] at h
    by_cases h2 : readBytes f 0 2 = [0x4D, 0x4D]
    · rw [if_pos h2] at h
      exact Or.inr ⟨h1, h2, h⟩
    · rw [if_neg h2] at h
      exact Option.noConfusion h

theorem parseTiff_build (f : List Nat) (fuel : Nat) (tp : TiffParsed)
    (h : (readBytes f 0 2 = [0x49, 0x49] ∧ parseTiffBody f fuel true = some tp) ∨
      (readBytes f 0 2 ≠ [0x49, 0x49] ∧ readBytes f 0 2 = [0x4D, 0x4D] ∧
        parseTiffBody f fuel false = some tp)) :
    parseTiff f fuel = some tp := by
  unfold parseTiff
  rcases h with ⟨h1, hb⟩ | ⟨h1, h2, hb⟩
  · rw [if_pos h1]
    exact hb
  · rw [if_neg h1, if_pos h2]
    exact hb

theorem agreeOn_of_ranges (g f : List Nat) (R : List (Nat × Nat)) (S : Nat × Nat)
    (hpt : ∀ i, (∀ r ∈ R, ¬ inRange i r) → ¬ inRange i S → g[i]? = f[i]?)
    (a n : Nat) (hR : ∀ r ∈ R, rdisjoint r (a, n)) (hS : rdisjoint S (a, n)) :
    agreeOn g f a n := by
  intro i h1 h2
  apply hpt
  · intro r hr
    have h3 := hR r hr
    dsimp only [rdisjoint, inRange] at h3 ⊢
    omega
  · dsimp only [rdisjoint, inRange] at hS ⊢
    omega

/-- C1: TiffDirectory.delete on directory k (k ≥ 1) of a parsed TIFF file
whose directory has both STRIP_OFFSETS and STRIP_BYTE_COUNTS: every byte of
every resolved (offset, length) strip range is overwritten with 0x00 (the
offsets resolved with near_pointer against out_pointer_offset), the value of
the directory's trailing next-IFD pointer is written at the file location
in_pointer_offset that referred to it, every other byte - the directory's
own entry bytes included - and the total file length are unchanged, and
reopening the file parses the same dialect with exactly directory k removed
from the IFD sequence.  The disjointness hypotheses state that the strip
ranges and the in-pointer slot do not overlap the header or the metadata
regions and pointer slots of the parsed directories, which well-formed TIFF
files provide. -/
theorem deleteDirectory_spec (f : List Nat) (fuel : Nat) (le bt nd : Bool)
    (dirs : List PDir) (k : Nat) (dirk : PDir) (offsets lengths : List Nat)
    (hparse : parseTiff f fuel = some ⟨le, bt, dirs⟩)
    (hnd : nd = ndpiFlag bt dirs)
    (hk : dirs[k]? = some dirk) (hk1 : 1 ≤ k)
    (hoffs : entryNums ⟨le, bt, nd⟩ f dirk.entries 273 = some offsets)
    (hlens : entryNums ⟨le, bt, nd⟩ f dirk.entries 279 = some lengths)
    (hRin : ∀ r ∈ stripRanges ⟨le, bt, nd⟩ dirk.outPtr (offsets.zip lengths),
      r.1 + r.2 ≤ f.length)
    (hRhdr : ∀ r ∈ stripRanges ⟨le, bt, nd⟩ dirk.outPtr (offsets.zip lengths),
      rdisjoint r (0, if bt = true then 16 else 8))
    (hRdirs : ∀ r ∈ stripRanges ⟨le, bt, nd⟩ dirk.outPtr (offsets.zip lengths),
      ∀ (j : Nat) (dir : PDir), dirs[j]? = some dir →
        rdisjoint r (dir.offset, dir.outPtr - dir.offset) ∧
        rdisjoint r (dir.outPtr, dSize ⟨le, bt, nd⟩))
    (hShdr : rdisjoint (dirk.inPtr, dSize ⟨le, bt, nd⟩)
      (0, if bt = true then 16 else 8))
    (hSdirs : ∀ (j : Nat) (dir : PDir), dirs[j]? = some dir →
      rdisjoint (dirk.inPtr, dSize ⟨le, bt, nd⟩)
        (dir.offset, dir.outPtr - dir.offset))
    (hSslots : ∀ (j : Nat) (dir : PDir), dirs[j]? = some dir → j ≠ k - 1 →
      rdisjoint (dirk.inPtr, dSize ⟨le, bt, nd⟩)
        (dir.outPtr, dSize ⟨le, bt, nd⟩)) :
    ∃ f2, deleteDirectory ⟨le, bt, nd⟩ f dirk none = some f2 ∧
      f2.length = f.length ∧
      (∀ r ∈ stripRanges ⟨le, bt, nd⟩ dirk.outPtr (offsets.zip lengths),
        ∀ i, inRange i r → f2[i]? = some 0) ∧
      readWord le f2 dirk.inPtr (dSize ⟨le, bt, nd⟩)
        = readWord le f dirk.outPtr (dSize ⟨le, bt, nd⟩) ∧
      (∀ i, (∀ r ∈ stripRanges ⟨le, bt, nd⟩ dirk.outPtr (offsets.zip lengths),
          ¬ inRange i r) →
        ¬ inRange i (dirk.inPtr, dSize ⟨le, bt, nd⟩) → f2[i]? = f[i]?) ∧
      ∃ dirs2, parseTiff f2 fuel = some ⟨le, bt, dirs2⟩ ∧
        dirs2.map coreOf = (dirs.map coreOf).eraseIdx k := by
  have hmb : parseTiffBody f fuel le = some ⟨le, bt, dirs⟩ ∧
      ((readBytes f 0 2 = [0x49, 0x49] ∧ le = true) ∨
       (readBytes f 0 2 ≠ [0x49, 0x49] ∧ readBytes f 0 2 = [0x4D, 0x4D] ∧
         le = false)) := by
    rcases parseTiff_inv f fuel ⟨le, bt, dirs⟩ hparse with ⟨hm1, hb⟩ | ⟨hm0, hm1, hb⟩
    · have hle := (parseTiffBody_inv f fuel true le bt dirs hb).1
      subst hle
      exact ⟨hb, Or.inl ⟨hm1, rfl⟩⟩
    · have hle := (parseTiffBody_inv f fuel false le bt dirs hb).1
      subst hle
      exact ⟨hb, Or.inr ⟨hm0, hm1, rfl⟩⟩
  obtain ⟨hbody, hmarker⟩ := hmb
  obtain ⟨-, hnenil, hchain0, hver⟩ := parseTiffBody_inv f fuel le le bt dirs hbody
  obtain ⟨d0, dtail, rfl⟩ : ∃ d0 dtail, dirs = d0 :: dtail := by
    cases dirs with
    | nil => exact absurd rfl hnenil
    | cons a b => exact ⟨a, b, rfl⟩
  have hklen : k < (d0 :: dtail).length := by
    rw [List.getElem?_eq_some] at hk
    exact hk.1
  have hkk : k - 1 + 1 = k := by omega
  have hkt : dtail[k - 1]? = some dirk := by
    have h2 := hk
    rw [← hkk, List.getElem?_cons_succ] at h2
    exact h2
  have hmlt : k - 1 < dtail.length := by
    simp only [List.length_cons] at hklen
    omega
  have hnd2 : nd = (!bt && hasTag d0.entries 65420) := by
    rw [hnd]
    rfl
  obtain ⟨fuel2, rfl⟩ : ∃ fuel2, fuel = fuel2 + 1 := by
    cases fuel with
    | zero => exact absurd hchain0 (by simp [parseChain])
    | succ n => exact ⟨n, rfl⟩
  obtain ⟨ptr0, hw0, hcase0⟩ := parseChain_succ_inv le bt false f _ 0 fuel2 _ hchain0
  rcases hcase0 with ⟨-, habs⟩ | ⟨hptr0, dir0, rest0, hd0, hrest0, hcons0⟩
  · exact absurd habs (by simp)
  injection hcons0 with hc1 hc2
  subst hc1
  subst hc2
  obtain ⟨hdoff0, hdin0, -⟩ := parseDir_inv _ f ptr0 _ d0 hd0
  rw [activation_zero bt d0.entries, ← hnd2] at hrest0
  obtain ⟨hfact0, hfactsucc, hfactper⟩ := parseChain_facts le bt nd f fuel2
    d0.outPtr (0 + 1) dtail hrest0 (by omega)
  obtain ⟨hslotk, hoffknz, hpdk, vK, hvK⟩ := hfactper (k - 1) dirk hkt
  have hinPtrRange : dirk.inPtr + dSize ⟨le, bt, nd⟩ ≤ f.length :=
    readWord_some_range _ _ _ _ _ hslotk
  have hvKlt : vK < 256 ^ dSize ⟨le, bt, nd⟩ := readWord_lt _ _ _ _ _ hvK
  obtain ⟨dirprev, hprev, hprevout, hinPtrEq⟩ : ∃ dp, (d0 :: dtail)[k - 1]? = some dp ∧
      dp.outPtr = dirk.inPtr ∧
      spliceSlotPos d0.outPtr dtail (k - 1) = dirk.inPtr := by
    cases hk2 : k - 1 with
    | zero =>
      rw [hk2] at hkt
      have h1 := (hfact0 dirk hkt).symm
      exact ⟨d0, by rw [List.getElem?_cons_zero], h1, h1⟩
    | succ j =>
      rw [hk2] at hkt
      have hjlt : j < dtail.length := by
        have h2 := hkt
        rw [List.getElem?_eq_some] at h2
        obtain ⟨hh, -⟩ := h2
        omega
      have hjel : dtail[j]? = some (dtail[j]) := List.getElem?_eq_getElem hjlt
      have hsucc := hfactsucc j (dtail[j]) dirk hjel hkt
      refine ⟨dtail[j], ?_, hsucc.symm, ?_⟩
      · rw [List.getElem?_cons_succ]
        exact hjel
      · show (match dtail[j]? with | some dir => dir.outPtr | none => 0) = dirk.inPtr
        rw [hjel]
        exact hsucc.symm
  set R := stripRanges ⟨le, bt, nd⟩ dirk.outPtr (offsets.zip lengths) with hRdef
  have hzs : zeroStrips ⟨le, bt, nd⟩ dirk.outPtr none f (offsets.zip lengths)
      = some (zeroAll f R) := by
    rw [hRdef]
    exact zeroStrips_none _ _ _ f
  set f1 := zeroAll f R with hf1def
  have hf1len : f1.length = f.length := by
    rw [hf1def]
    exact zeroAll_length R f hRin
  have hagSlotK : agreeOn f1 f dirk.outPtr (dSize ⟨le, bt, nd⟩) := by
    intro i h1 h2
    rw [hf1def]
    apply zeroAll_outside R f i hRin
    intro r hr
    have h3 := (hRdirs r hr k dirk hk).2
    dsimp only [rdisjoint, inRange] at h3 ⊢
    omega
  have hout1 : readWord le f1 dirk.outPtr (dSize ⟨le, bt, nd⟩) = some vK := by
    rw [readWord_congr le f1 f _ _ hf1len hagSlotK]
    exact hvK
  set enc := encodeWord le (dSize ⟨le, bt, nd⟩) vK with hencdef
  have henclen : enc.length = dSize ⟨le, bt, nd⟩ := by
    rw [hencdef]
    exact encodeWord_length _ _ _
  set f2 := writeBytes f1 dirk.inPtr enc with hf2def
  have hdel : deleteDirectory ⟨le, bt, nd⟩ f dirk none = some f2 := by
    unfold deleteDirectory
    rw [hoffs, hlens]
    simp only [Option.bind_eq_bind, Option.some_bind]
    rw [hzs]
    simp only [Option.some_bind]
    rw [hout1]
    simp only [Option.some_bind]
  have hf2len : f2.length = f.length := by
    rw [hf2def, writeBytes_length f1 enc dirk.inPtr
      (by rw [henclen, hf1len]; exact hinPtrRange), hf1len]
  have hpoint : ∀ i, (∀ r ∈ R, ¬ inRange i r) →
      ¬ inRange i (dirk.inPtr, dSize ⟨le, bt, nd⟩) → f2[i]? = f[i]? := by
    intro i hR1 hS1
    rw [hf2def]
    rw [writeBytes_getElem? f1 enc dirk.inPtr i
      (by rw [henclen, hf1len]; exact hinPtrRange)]
    rw [if_neg (by rw [henclen]; dsimp only [inRange] at hS1; exact hS1)]
    rw [hf1def]
    exact zeroAll_outside R f i hRin hR1
  have hzero : ∀ r ∈ R, ∀ i, inRange i r → f2[i]? = some 0 := by
    intro r hr i hir
    rw [hf2def]
    rw [writeBytes_getElem? f1 enc dirk.inPtr i
      (by rw [henclen, hf1len]; exact hinPtrRange)]
    rw [if_neg ?hnotin]
    · rw [hf1def]
      exact zeroAll_inside R f i r hRin hr hir
    case hnotin =>
      have h3 := (hRdirs r hr (k - 1) dirprev hprev).2
      rw [hprevout] at h3
      rw [henclen]
      dsimp only [rdisjoint, inRange] at h3 hir ⊢
      omega
  have hptrRead : readWord le f2 dirk.inPtr (dSize ⟨le, bt, nd⟩) = some vK := by
    rw [hf2def, hencdef]
    exact readWord_writeBytes_encode le f1 dirk.inPtr _ vK
      (by rw [hf1len]; exact hinPtrRange) hvKlt
  have haor := agreeOn_of_ranges f2 f R (dirk.inPtr, dSize ⟨le, bt, nd⟩) hpoint
  have hhdrEq : (if bt = true then 8 else 4) + dSize ⟨le, bt, false⟩
      = (if bt = true then 16 else 8) := by
    cases bt <;> rfl
  have hhdr8 : 8 ≤ (if bt = true then 16 else 8) := by
    cases bt <;> norm_num
  have hagHdr : agreeOn f2 f 0 (if bt = true then 16 else 8) := by
    apply haor
    · intro r hr
      have h3 := hRhdr r hr
      dsimp only [rdisjoint] at h3 ⊢
      omega
    · dsimp only [rdisjoint] at hShdr ⊢
      omega
  have hsub : ∀ a n, a + n ≤ 8 → agreeOn f2 f a n := by
    intro a n h
    apply agreeOn_mono f2 f 0 (if bt = true then 16 else 8) a n hagHdr (by omega)
    omega
  have hmark2 : readBytes f2 0 2 = readBytes f 0 2 :=
    readBytes_congr f2 f 0 2 (hsub 0 2 (by norm_num))
  have hver2 : readWord le f2 2 2 = readWord le f 2 2 :=
    readWord_congr le f2 f 2 2 hf2len (hsub 2 2 (by norm_num))
  have hver4 : readWord le f2 4 2 = readWord le f 4 2 :=
    readWord_congr le f2 f 4 2 hf2len (hsub 4 2 (by norm_num))
  have hver6 : readWord le f2 6 2 = readWord le f 6 2 :=
    readWord_congr le f2 f 6 2 hf2len (hsub 6 2 (by norm_num))
  have hw0g : readWord le f2 (if bt = true then 8 else 4) (dSize ⟨le, bt, false⟩)
      = some ptr0 := by
    rw [readWord_congr le f2 f _ _ hf2len
      (agreeOn_mono f2 f 0 (if bt = true then 16 else 8) _ _ hagHdr (by omega)
        (by rw [← hhdrEq]; omega))]
    exact hw0
  have hcons0get : (d0 :: dtail)[0]? = some d0 := by
    rw [List.getElem?_cons_zero]
  have hreg0ag : agreeOn f2 f d0.offset (d0.outPtr - d0.offset) := by
    apply haor
    · intro r hr
      exact (hRdirs r hr 0 d0 hcons0get).1
    · exact hSdirs 0 d0 hcons0get
  have hd0g : parseDir ⟨le, bt, false⟩ f2 ptr0 (if bt = true then 8 else 4)
      = some d0 := by
    have h4 := parseDir_congr ⟨le, bt, false⟩ f2 f ptr0 (if bt = true then 8 else 4)
      (if bt = true then 8 else 4) d0 hf2len hd0 hreg0ag
    have h5 : (⟨d0.offset, (if bt = true then 8 else 4), d0.entries, d0.outPtr⟩ : PDir)
        = d0 := by
      cases d0
      dsimp only at hdin0 ⊢
      rw [hdin0]
    rw [h5] at h4
    exact h4
  obtain ⟨tail2, htail2, hcores⟩ := parseChain_splice le bt nd f f2 hf2len fuel2
    d0.outPtr (0 + 1) (k - 1) dtail hrest0 (by omega) hmlt
    (by
      intro hne0
      apply haor
      · intro r hr
        exact (hRdirs r hr 0 d0 hcons0get).2
      · exact hSslots 0 d0 hcons0get (by omega))
    (by
      intro j dir hj
      apply haor
      · intro r hr
        exact (hRdirs r hr (j + 1) dir (by rw [List.getElem?_cons_succ]; exact hj)).1
      · exact hSdirs (j + 1) dir (by rw [List.getElem?_cons_succ]; exact hj))
    (by
      intro j dir hj hjne
      apply haor
      · intro r hr
        exact (hRdirs r hr (j + 1) dir (by rw [List.getElem?_cons_succ]; exact hj)).2
      · exact hSslots (j + 1) dir (by rw [List.getElem?_cons_succ]; exact hj)
          (by omega))
    (by
      intro dirm hdirm
      rw [hkt] at hdirm
      have hdm : dirm = dirk := (Option.some_inj.mp hdirm).symm
      subst hdm
      rw [hinPtrEq, hptrRead, hvK])
  have hchain2 : parseChain le bt f2 false (if bt = true then 8 else 4) 0 (fuel2 + 1)
      = some (d0 :: tail2) := by
    apply parseChain_succ_build le bt false f2 _ 0 fuel2 ptr0 d0 tail2 hw0g hptr0 hd0g
    rw [activation_zero bt d0.entries, ← hnd2]
    exact htail2
  have hverg : (bt = false ∧ readWord le f2 2 2 = some 42) ∨
      (bt = true ∧ readWord le f2 2 2 = some 43 ∧ readWord le f2 4 2 = some 8 ∧
        readWord le f2 6 2 = some 0) := by
    rcases hver with ⟨hbt, hv⟩ | ⟨hbt, hv, h8, h0⟩
    · exact Or.inl ⟨hbt, by rw [hver2]; exact hv⟩
    · exact Or.inr ⟨hbt, by rw [hver2]; exact hv, by rw [hver4]; exact h8,
        by rw [hver6]; exact h0⟩
  have hbody2 : parseTiffBody f2 (fuel2 + 1) le = some ⟨le, bt, d0 :: tail2⟩ :=
    parseTiffBody_build f2 (fuel2 + 1) le bt (d0 :: tail2) hverg hchain2 (by simp)
  have htiff2 : parseTiff f2 (fuel2 + 1) = some ⟨le, bt, d0 :: tail2⟩ := by
    apply parseTiff_build
    rcases hmarker with ⟨hm1, hle⟩ | ⟨hm0, hm1, hle⟩
    · subst hle
      exact Or.inl ⟨by rw [hmark2]; exact hm1, hbody2⟩
    · subst hle
      exact Or.inr ⟨by rw [hmark2]; exact hm0, by rw [hmark2]; exact hm1, hbody2⟩
  refine ⟨f2, hdel, hf2len, hzero, by rw [hptrRead, hvK], hpoint,
    d0 :: tail2, htiff2, ?_⟩
  rw [List.map_cons, hcores, List.map_cons, ← hkk, List.eraseIdx_cons_succ]
  have hfix : k - 1 + 1 - 1 = k - 1 := by omega
  rw [hfix]

/-- A 64-byte classic little-endian TIFF with two directories; directory 1
carries STRIP_OFFSETS = [60] and STRIP_BYTE_COUNTS = [4] pointing at the
strip bytes 01 02 03 04 at offset 60. -/
def c1File : List Nat :=
  [0x49, 0x49, 42, 0, 8, 0, 0, 0,
   1, 0, 0, 1, 3, 0, 1, 0, 0, 0, 0, 0, 0, 0,
   26, 0, 0, 0,
   2, 0,
   17, 1, 3, 0, 1, 0, 0, 0, 60, 0, 0, 0,
   23, 1, 3, 0, 1, 0, 0, 0, 4, 0, 0, 0,
   0, 0, 0, 0,
   0, 0, 0, 0,
   1, 2, 3, 4]

/-- Directory 0 of c1File as the reader parses it. -/
def c1Dir0 : PDir := ⟨8, 4, [⟨10, 256, 3, 1, 0⟩], 22⟩

/-- Directory 1 of c1File as the reader parses it. -/
def c1Dir1 : PDir := ⟨26, 22, [⟨28, 273, 3, 1, 60⟩, ⟨40, 279, 3, 1, 4⟩], 52⟩

/-- C1 witness: deleting directory 1 of c1File through deleteDirectory_spec. -/
theorem deleteDirectory_spec_witness :
    ∃ f2, deleteDirectory ⟨true, false, false⟩ c1File c1Dir1 none = some f2 ∧
      f2.length = c1File.length ∧
      (∀ r ∈ stripRanges ⟨true, false, false⟩ c1Dir1.outPtr
          (([60] : List Nat).zip ([4] : List Nat)),
        ∀ i, inRange i r → f2[i]? = some 0) ∧
      readWord true f2 c1Dir1.inPtr (dSize ⟨true, false, false⟩)
        = readWord true c1File c1Dir1.outPtr (dSize ⟨true, false, false⟩) ∧
      (∀ i, (∀ r ∈ stripRanges ⟨true, false, false⟩ c1Dir1.outPtr
            (([60] : List Nat).zip ([4] : List Nat)),
          ¬ inRange i r) →
        ¬ inRange i (c1Dir1.inPtr, dSize ⟨true, false, false⟩) →
        f2[i]? = c1File[i]?) ∧
      ∃ dirs2, parseTiff f2 4 = some ⟨true, false, dirs2⟩ ∧
        dirs2.map coreOf = (([c1Dir0, c1Dir1] : List PDir).map coreOf).eraseIdx 1 :=
  deleteDirectory_spec c1File 4 true false false [c1Dir0, c1Dir1] 1 c1Dir1 [60] [4]
    (by decide) (by decide) (by decide) (by decide) (by decide) (by decide)
    (by decide) (by decide)
    (by
      intro r hr j dir hj
      have hjlt : j < 2 := by
        rw [List.getElem?_eq_some] at hj
        simpa using hj.1
      interval_cases j
      · simp only [List.getElem?_cons_zero, Option.some_inj] at hj
        subst hj
        revert hr
        revert r
        decide
      · simp only [List.getElem?_cons_succ, List.getElem?_cons_zero,
          Option.some_inj] at hj
        subst hj
        revert hr
        revert r
        decide)
    (by decide)
    (by
      intro j dir hj
      have hjlt : j < 2 := by
        rw [List.getElem?_eq_some] at hj
        simpa using hj.1
      interval_cases j
      · simp only [List.getElem?_cons_zero, Option.some_inj] at hj
        subst hj
        decide
      · simp only [List.getElem?_cons_succ, List.getElem?_cons_zero,
          Option.some_inj] at hj
        subst hj
        decide)
    (by
      intro j dir hj hne
      have hjlt : j < 2 := by
        rw [List.getElem?_eq_some] at hj
        simpa using hj.1
      interval_cases j
      · exact absurd rfl hne
      · simp only [List.getElem?_cons_succ, List.getElem?_cons_zero,
          Option.some_inj] at hj
        subst hj
        decide)

/-- An 80-byte classic little-endian NDPI file: directory 0 carries the NDPI
magic tag 65420 next to STRIP_OFFSETS = [76] and STRIP_BYTE_COUNTS = [4];
its 8-byte trailing pointer at offset 46 leads to directory 1 at offset 54;
the strip bytes 01 02 03 04 sit at offset 76. -/
def c1NdpiFile : List Nat :=
  [0x49, 0x49, 42, 0, 8, 0, 0, 0,
   3, 0,
   0x11, 0x01, 3, 0, 1, 0, 0, 0, 76, 0, 0, 0,
   0x17, 0x01, 3, 0, 1, 0, 0, 0, 4, 0, 0, 0,
   0x8C, 0xFF, 3, 0, 1, 0, 0, 0, 0, 0, 0, 0,
   54, 0, 0, 0, 0, 0, 0, 0,
   1, 0,
   0, 1, 3, 0, 1, 0, 0, 0, 0, 0, 0, 0,
   0, 0, 0, 0, 0, 0, 0, 0,
   1, 2, 3, 4]

/-- Directory 0 of c1NdpiFile as the reader parses it. -/
def c1NdpiDir0 : PDir :=
  ⟨8, 4, [⟨10, 273, 3, 1, 76⟩, ⟨22, 279, 3, 1, 4⟩, ⟨34, 65420, 3, 1, 0⟩], 46⟩

/-- Directory 1 of c1NdpiFile as the reader parses it. -/
def c1NdpiDir1 : PDir := ⟨54, 46, [⟨56, 256, 3, 1, 0⟩], 68⟩

/-- c1NdpiFile after delete(directory 0) in NDPI mode: the strip at 76 is
zeroed and the 8-byte pointer write at offset 4 has cleared bytes 8-11,
directory 0's own entry-count field and the first bytes of its first
entry. -/
def c1NdpiDel : List Nat :=
  [0x49, 0x49, 42, 0, 54, 0, 0, 0,
   0, 0,
   0, 0, 3, 0, 1, 0, 0, 0, 76, 0, 0, 0,
   0x17, 0x01, 3, 0, 1, 0, 0, 0, 4, 0, 0, 0,
   0x8C, 0xFF, 3, 0, 1, 0, 0, 0, 0, 0, 0, 0,
   54, 0, 0, 0, 0, 0, 0, 0,
   1, 0,
   0, 1, 3, 0, 1, 0, 0, 0, 0, 0, 0, 0,
   0, 0, 0, 0, 0, 0, 0, 0,
   0, 0, 0, 0]

/-- C1 counterexample: on an NDPI file, delete of directory 0 writes an
8-byte next-IFD pointer (format code D is Q in NDPI mode) over the 4-byte
classic header slot at offset 4, so byte 8 - the first byte of directory
0's own entry-count field, outside every resolved strip range and outside
the 4-byte location that referred to the directory - changes from 3 to 0.
The original claim's clause that d_k's own entry bytes and all bytes
outside the strips and the in-pointer location stay unchanged fails at
k = 0, so the unrestricted claim is false. -/
theorem deleteDirectory_ndpi_counterexample :
    parseTiff c1NdpiFile 3 = some ⟨true, false, [c1NdpiDir0, c1NdpiDir1]⟩ ∧
    ndpiFlag false [c1NdpiDir0, c1NdpiDir1] = true ∧
    hasTag c1NdpiDir0.entries 273 = true ∧
    hasTag c1NdpiDir0.entries 279 = true ∧
    entryNums ⟨true, false, true⟩ c1NdpiFile c1NdpiDir0.entries 273 = some [76] ∧
    entryNums ⟨true, false, true⟩ c1NdpiFile c1NdpiDir0.entries 279 = some [4] ∧
    stripRanges ⟨true, false, true⟩ c1NdpiDir0.outPtr
      (([76] : List Nat).zip ([4] : List Nat)) = [(76, 4)] ∧
    deleteDirectory ⟨true, false, true⟩ c1NdpiFile c1NdpiDir0 none = some c1NdpiDel ∧
    (¬ inRange 8 (76, 4)) ∧
    (¬ inRange 8 (c1NdpiDir0.inPtr, 4)) ∧
    inRange 8 (c1NdpiDir0.offset, 2) ∧
    c1NdpiFile[8]? = some 3 ∧
    c1NdpiDel[8]? = some 0 := by
  decide

end AnonymizeSlide
